import Mathlib

/-!
Verification of the storyarn i18n maintenance scripts.

This file shallowly embeds the three Python scripts of the repository
(`scripts/gettext_split.py`, `scripts/migrate_translations.py`,
`scripts/verify_translations.py`) as executable Lean definitions over
`List Char` (Python `str` values are modelled as lists of characters),
and proves or refutes the frozen claims about them.

Conventions of the embedding:
- Python `str.replace` with a fixed pattern is modelled by a structurally
  recursive scanner that replaces leftmost, non-overlapping occurrences.
- Regular-expression substitutions are modelled by recursive scanners that
  mirror the scan/lookbehind/anchor semantics of the concrete pattern used
  in the source (the patterns are all fixed literals plus character
  classes, so no general regex engine is needed).
- `re.MULTILINE` anchors split on the newline character, exactly as CPython
  treats them for `str` patterns.
- Fallible code paths (Python exceptions) are modelled with `Option`.
-/

/-! ## Character classes -/

/-- ASCII word character, modelling `\w` of the Python `re` module as it
behaves on the ASCII subset that the scripts' patterns and replacements
are built from. -/
def isWordChar (c : Char) : Bool :=
  ('a' ≤ c && c ≤ 'z') || ('A' ≤ c && c ≤ 'Z') || ('0' ≤ c && c ≤ '9') || c = '_'

/-- Python whitespace (`\s` of the `re` module / `str.strip` default),
restricted to the ASCII range. -/
def isPySpace (c : Char) : Bool :=
  c = ' ' || c = '\t' || c = '\n' || c = '\r' || c = '\x0b' || c = '\x0c'

/-! ## Domain Resolver (`scripts/gettext_split.py`)

`DOMAIN_RULES` is the ordered routing table of `(path-prefix, domain)`
pairs; `get_domain` is the first-match lookup of the script. -/

def DOMAIN_RULES : List (List Char × List Char) := [
  ("storyarn_web/live/flow_live/".toList, "flows".toList),
  ("storyarn_web/components/condition_builder.ex".toList, "flows".toList),
  ("storyarn_web/components/instruction_builder.ex".toList, "flows".toList),
  ("storyarn_web/components/sidebar/flow_tree.ex".toList, "flows".toList),
  ("storyarn_web/live/map_live/".toList, "maps".toList),
  ("storyarn_web/components/sidebar/map_tree.ex".toList, "maps".toList),
  ("storyarn_web/live/sheet_live/".toList, "sheets".toList),
  ("storyarn_web/components/block_components.ex".toList, "sheets".toList),
  ("storyarn_web/components/block_components/".toList, "sheets".toList),
  ("storyarn_web/components/audio_picker.ex".toList, "sheets".toList),
  ("storyarn_web/components/sidebar/sheet_tree.ex".toList, "sheets".toList),
  ("storyarn/sheets/versioning.ex".toList, "sheets".toList),
  ("storyarn_web/live/localization_live/".toList, "localization".toList),
  ("storyarn_web/live/project_live/".toList, "projects".toList),
  ("storyarn_web/live/workspace_live/".toList, "workspaces".toList),
  ("storyarn_web/live/settings_live/workspace_members.ex".toList, "workspaces".toList),
  ("storyarn_web/live/settings_live/workspace_general.ex".toList, "workspaces".toList),
  ("storyarn_web/live/screenplay_live/".toList, "screenplays".toList),
  ("storyarn_web/controllers/screenplay_export_controller.ex".toList, "screenplays".toList),
  ("storyarn_web/components/sidebar/screenplay_tree.ex".toList, "screenplays".toList),
  ("storyarn_web/live/user_live/".toList, "identity".toList),
  ("storyarn_web/controllers/user_session_controller.ex".toList, "identity".toList),
  ("storyarn_web/controllers/oauth_controller.ex".toList, "identity".toList),
  ("storyarn_web/user_auth.ex".toList, "identity".toList),
  ("storyarn/accounts/registration.ex".toList, "identity".toList),
  ("storyarn_web/live/settings_live/profile.ex".toList, "settings".toList),
  ("storyarn_web/live/settings_live/security.ex".toList, "settings".toList),
  ("storyarn_web/live/settings_live/connections.ex".toList, "settings".toList),
  ("storyarn_web/live/asset_live/".toList, "assets".toList),
  ("storyarn_web/live/components/asset_upload.ex".toList, "assets".toList),
  ("storyarn_web/components/layouts.ex".toList, "default".toList),
  ("storyarn_web/components/core_components.ex".toList, "default".toList),
  ("storyarn_web/components/project_sidebar.ex".toList, "default".toList),
  ("storyarn_web/components/sidebar.ex".toList, "default".toList),
  ("storyarn_web/components/collaboration_components.ex".toList, "default".toList),
  ("storyarn_web/components/member_components.ex".toList, "default".toList),
  ("storyarn_web/components/save_indicator.ex".toList, "default".toList),
  ("storyarn_web/components/ui_components.ex".toList, "default".toList),
  ("storyarn_web/helpers/authorize.ex".toList, "default".toList)]

/-- The loop body of `get_domain`: iterate rules in order, return the label
of the first rule whose path-prefix is a string prefix of the path. -/
def findDomain : List (List Char × List Char) → List Char → Option (List Char)
  | [], _ => none
  | (pre, dom) :: rs, p => if pre.isPrefixOf p then some dom else findDomain rs p

/-- `get_domain(rel_path)` of `scripts/gettext_split.py`. -/
def get_domain (rel_path : List Char) : Option (List Char) :=
  findDomain DOMAIN_RULES rel_path

theorem findDomain_first (rules : List (List Char × List Char)) (p : List Char) :
    ∀ i (hi : i < rules.length),
      (rules.get ⟨i, hi⟩).1.isPrefixOf p = true →
      (∀ j (hj : j < i), ¬ ((rules.get ⟨j, hj.trans hi⟩).1.isPrefixOf p = true)) →
      findDomain rules p = some (rules.get ⟨i, hi⟩).2 := by
  induction rules with
  | nil => intro i hi; simp at hi
  | cons r rs ih =>
    intro i hi hmatch hearlier
    cases i with
    | zero =>
      obtain ⟨pre, dom⟩ := r
      simp only [List.get] at hmatch ⊢
      simp [findDomain, hmatch]
    | succ n =>
      obtain ⟨pre, dom⟩ := r
      have h0 : ¬ (pre.isPrefixOf p = true) := by
        have := hearlier 0 (Nat.succ_pos n)
        simpa using this
      simp only [findDomain, if_neg h0]
      exact ih n (Nat.lt_of_succ_lt_succ hi) hmatch
        (fun j hj => by
          have := hearlier (j + 1) (Nat.succ_lt_succ hj)
          simpa using this)

theorem findDomain_none (rules : List (List Char × List Char)) (p : List Char) :
    (∀ i (hi : i < rules.length), ¬ ((rules.get ⟨i, hi⟩).1.isPrefixOf p = true)) →
    findDomain rules p = none := by
  induction rules with
  | nil => intro _; rfl
  | cons r rs ih =>
    intro h
    obtain ⟨pre, dom⟩ := r
    have h0 : ¬ (pre.isPrefixOf p = true) := by
      have := h 0 (Nat.succ_pos rs.length)
      simpa using this
    simp only [findDomain, if_neg h0]
    exact ih (fun i hi => by
      have := h (i + 1) (Nat.succ_lt_succ hi)
      simpa using this)

/-- C8: for every relative path `p`, `get_domain p` returns the label of
the first rule of `DOMAIN_RULES` (in definition order) whose path-prefix is
a string prefix of `p`, and returns `none` when no rule's prefix is a
prefix of `p`; a later rule's label is never returned when an earlier rule
matches. -/
theorem C8_get_domain_first_match :
    (∀ (p : List Char) (i : Nat) (hi : i < DOMAIN_RULES.length),
      (DOMAIN_RULES.get ⟨i, hi⟩).1.isPrefixOf p = true →
      (∀ j (hj : j < i), ¬ ((DOMAIN_RULES.get ⟨j, hj.trans hi⟩).1.isPrefixOf p = true)) →
      get_domain p = some (DOMAIN_RULES.get ⟨i, hi⟩).2) ∧
    (∀ (p : List Char),
      (∀ i (hi : i < DOMAIN_RULES.length),
        ¬ ((DOMAIN_RULES.get ⟨i, hi⟩).1.isPrefixOf p = true)) →
      get_domain p = none) := by
  constructor
  · intro p i hi hm he
    exact findDomain_first DOMAIN_RULES p i hi hm he
  · intro p h
    exact findDomain_none DOMAIN_RULES p h

/-- Witness for C8: the path `storyarn_web/live/flow_live/index.ex` matches
the first rule and resolves to domain `flows`. -/
theorem C8_get_domain_first_match_witness :
    get_domain "storyarn_web/live/flow_live/index.ex".toList = some "flows".toList := by
  have h := C8_get_domain_first_match.1 "storyarn_web/live/flow_live/index.ex".toList 0
    (by decide)
  exact h (by decide) (fun j hj => absurd hj (Nat.not_lt_zero j))

/-! ## Translation-Entry Codec: escape / unescape
(`scripts/migrate_translations.py` `_unescape` / `_escape`, duplicated
verbatim in `scripts/verify_translations.py`).

Python `str.replace(pat, repl)` replaces leftmost non-overlapping
occurrences; each pass below is one `replace` call, applied in source
order. -/

/-- Pass `s.replace('\\n', '\n')`: the first replace of `_unescape`. -/
def unN : List Char → List Char
  | [] => []
  | [c] => [c]
  | c1 :: c2 :: r =>
    if c1 = '\\' && c2 = 'n' then '\n' :: unN r else c1 :: unN (c2 :: r)

/-- Pass `s.replace('\\"', '"')`: the second replace of `_unescape`. -/
def unQ : List Char → List Char
  | [] => []
  | [c] => [c]
  | c1 :: c2 :: r =>
    if c1 = '\\' && c2 = '"' then '"' :: unQ r else c1 :: unQ (c2 :: r)

/-- Pass `s.replace('\\\\', '\\')`: the third replace of `_unescape`. -/
def unB : List Char → List Char
  | [] => []
  | [c] => [c]
  | c1 :: c2 :: r =>
    if c1 = '\\' && c2 = '\\' then '\\' :: unB r else c1 :: unB (c2 :: r)

/-- `_unescape(s)`: replace `\n`, then `\"`, then `\\` by newline, quote,
backslash, in that order. -/
def unescape (s : List Char) : List Char := unB (unQ (unN s))

/-- Pass `s.replace('\\', '\\\\')`: the first replace of `_escape`. -/
def escB : List Char → List Char
  | [] => []
  | c :: r => if c = '\\' then '\\' :: '\\' :: escB r else c :: escB r

/-- Pass `s.replace('"', '\\"')`: the second replace of `_escape`. -/
def escQ : List Char → List Char
  | [] => []
  | c :: r => if c = '"' then '\\' :: '"' :: escQ r else c :: escQ r

/-- Pass `s.replace('\n', '\\n')`: the third replace of `_escape`. -/
def escN : List Char → List Char
  | [] => []
  | c :: r => if c = '\n' then '\\' :: 'n' :: escN r else c :: escN r

/-- `_escape(s)`: double each backslash, then escape quotes, then escape
newlines, in that order. -/
def escape (s : List Char) : List Char := escN (escQ (escB s))

/-- No backslash immediately followed by a literal letter `n` anywhere in
the string. -/
def noBsN : List Char → Bool
  | [] => true
  | [_] => true
  | c1 :: c2 :: r => !(c1 = '\\' && c2 = 'n') && noBsN (c2 :: r)

theorem noBsN_tail {c : Char} {s : List Char} (h : noBsN (c :: s) = true) :
    noBsN s = true := by
  cases s with
  | nil => rfl
  | cons c2 r => simp [noBsN] at h; exact h.2

theorem unN_cons {c : Char} (s : List Char) (h : c ≠ '\\') :
    unN (c :: s) = c :: unN s := by
  cases s with
  | nil => rfl
  | cons c2 r => simp [unN, h]

theorem unN_bs {s : List Char} (h : s.head? ≠ some 'n') :
    unN ('\\' :: s) = '\\' :: unN s := by
  cases s with
  | nil => rfl
  | cons c2 r =>
    have : c2 ≠ 'n' := by simpa using h
    simp [unN, this]

theorem unQ_cons {c : Char} (s : List Char) (h : c ≠ '\\') :
    unQ (c :: s) = c :: unQ s := by
  cases s with
  | nil => rfl
  | cons c2 r => simp [unQ, h]

theorem unQ_bs {s : List Char} (h : s.head? ≠ some '"') :
    unQ ('\\' :: s) = '\\' :: unQ s := by
  cases s with
  | nil => rfl
  | cons c2 r =>
    have : c2 ≠ '"' := by simpa using h
    simp [unQ, this]

theorem unB_cons {c : Char} (s : List Char) (h : c ≠ '\\') :
    unB (c :: s) = c :: unB s := by
  cases s with
  | nil => rfl
  | cons c2 r => simp [unB, h]

theorem escape_cons_bs (s : List Char) :
    escape ('\\' :: s) = '\\' :: '\\' :: escape s := by
  simp [escape, escB, escQ, escN]

theorem escape_cons_quote (s : List Char) :
    escape ('"' :: s) = '\\' :: '"' :: escape s := by
  simp [escape, escB, escQ, escN]

theorem escape_cons_nl (s : List Char) :
    escape ('\n' :: s) = '\\' :: 'n' :: escape s := by
  simp [escape, escB, escQ, escN]

theorem escape_cons_other {c : Char} (s : List Char)
    (h1 : c ≠ '\\') (h2 : c ≠ '"') (h3 : c ≠ '\n') :
    escape (c :: s) = c :: escape s := by
  simp [escape, escB, escQ, escN, h1, h2, h3]

/-- The head of an escaped string is never an unescaped quote. -/
theorem escape_head_ne_quote (s : List Char) : (escape s).head? ≠ some '"' := by
  cases s with
  | nil => simp [escape, escB, escQ, escN]
  | cons c r =>
    by_cases h1 : c = '\\'
    · subst h1; rw [escape_cons_bs]; simp
    · by_cases h2 : c = '"'
      · subst h2; rw [escape_cons_quote]; simp
      · by_cases h3 : c = '\n'
        · subst h3; rw [escape_cons_nl]; simp
        · rw [escape_cons_other r h1 h2 h3]; simp [h2]

/-- The head of an escaped string is the letter `n` only if the source
string itself starts with a literal `n`. -/
theorem escape_head_n {s : List Char} (h : (escape s).head? = some 'n') :
    s.head? = some 'n' := by
  cases s with
  | nil => simp [escape, escB, escQ, escN] at h
  | cons c r =>
    by_cases h1 : c = '\\'
    · subst h1; rw [escape_cons_bs] at h; simp at h
    · by_cases h2 : c = '"'
      · subst h2; rw [escape_cons_quote] at h; simp at h
      · by_cases h3 : c = '\n'
        · subst h3; rw [escape_cons_nl] at h; simp at h
        · rw [escape_cons_other r h1 h2 h3] at h
          simpa using h

/-- `unN` only ever changes a head character into a newline. -/
theorem unN_head {s : List Char} {c : Char} (h : (unN s).head? = some c) :
    s.head? = some c ∨ c = '\n' := by
  cases s with
  | nil => simp [unN] at h
  | cons c1 r =>
    cases r with
    | nil => simp [unN] at h; simp [h]
    | cons c2 r2 =>
      by_cases hbn : c1 = '\\' ∧ c2 = 'n'
      · obtain ⟨e1, e2⟩ := hbn; subst e1; subst e2
        simp [unN] at h
        right; exact h.symm
      · have : ¬ (c1 = '\\' && c2 = 'n') = true := by
          simp only [Bool.and_eq_true, decide_eq_true_eq]; exact hbn
        simp [unN, this] at h
        left; simp [h]

/-- Main round-trip lemma: for strings with no backslash immediately
followed by a literal `n`, unescaping inverts escaping. -/
theorem unescape_escape (s : List Char) (h : noBsN s = true) :
    unescape (escape s) = s := by
  induction s with
  | nil => rfl
  | cons c r ih =>
    have hr : noBsN r = true := noBsN_tail h
    by_cases h1 : c = '\\'
    · subst h1
      have hEr : (escape r).head? ≠ some 'n' := by
        intro hh
        have := escape_head_n hh
        cases r with
        | nil => simp at this
        | cons c2 r2 =>
          simp at this
          subst this
          simp [noBsN] at h
      have hF : (unN (escape r)).head? ≠ some '"' := by
        intro hh
        rcases unN_head hh with h' | h'
        · exact escape_head_ne_quote _ h'
        · simp at h'
      rw [escape_cons_bs]
      show unB (unQ (unN ('\\' :: '\\' :: escape r))) = _
      have s1 : unN ('\\' :: '\\' :: escape r) = '\\' :: '\\' :: unN (escape r) := by
        have : unN ('\\' :: escape r) = '\\' :: unN (escape r) := unN_bs hEr
        simp [unN, this]
      rw [s1]
      have s2 : unQ ('\\' :: '\\' :: unN (escape r)) =
          '\\' :: '\\' :: unQ (unN (escape r)) := by
        have : unQ ('\\' :: unN (escape r)) = '\\' :: unQ (unN (escape r)) := unQ_bs hF
        simp [unQ, this]
      rw [s2]
      have s3 : unB ('\\' :: '\\' :: unQ (unN (escape r))) =
          '\\' :: unB (unQ (unN (escape r))) := by
        simp [unB]
      rw [s3]
      exact congrArg ('\\' :: ·) (ih hr)
    · by_cases h2 : c = '"'
      · subst h2
        rw [escape_cons_quote]
        show unB (unQ (unN ('\\' :: '"' :: escape r))) = _
        have s1 : unN ('\\' :: '"' :: escape r) = '\\' :: '"' :: unN (escape r) := by
          have : unN ('"' :: escape r) = '"' :: unN (escape r) := unN_cons _ (by decide)
          simp [unN, this]
        rw [s1]
        have s2 : unQ ('\\' :: '"' :: unN (escape r)) = '"' :: unQ (unN (escape r)) := by
          simp [unQ]
        rw [s2]
        have s3 : unB ('"' :: unQ (unN (escape r))) = '"' :: unB (unQ (unN (escape r))) :=
          unB_cons _ (by decide)
        rw [s3]
        exact congrArg ('"' :: ·) (ih hr)
      · by_cases h3 : c = '\n'
        · subst h3
          rw [escape_cons_nl]
          show unB (unQ (unN ('\\' :: 'n' :: escape r))) = _
          have s1 : unN ('\\' :: 'n' :: escape r) = '\n' :: unN (escape r) := by
            simp [unN]
          rw [s1]
          have s2 : unQ ('\n' :: unN (escape r)) = '\n' :: unQ (unN (escape r)) :=
            unQ_cons _ (by decide)
          rw [s2]
          have s3 : unB ('\n' :: unQ (unN (escape r))) = '\n' :: unB (unQ (unN (escape r))) :=
            unB_cons _ (by decide)
          rw [s3]
          exact congrArg ('\n' :: ·) (ih hr)
        · rw [escape_cons_other r h1 h2 h3]
          show unB (unQ (unN (c :: escape r))) = _
          rw [unN_cons _ h1, unQ_cons _ h1, unB_cons _ h1]
          exact congrArg (c :: ·) (ih hr)

/-- C1 counterexample: for the two-character string backslash-`n` (a
literal backslash followed by the letter `n`, not an escape sequence),
`unescape(escape(x)) ≠ x`: escaping yields backslash-backslash-`n`, and
the first unescape pass rewrites its trailing backslash-`n` into a real
newline. So escape and unescape are not mutually inverse on all strings. -/
theorem C1_counterexample_bs_n :
    ¬ (unescape (escape ['\\', 'n']) = ['\\', 'n']) := by decide

/-- C1 (amended): the codec round-trip holds on every string that contains
no literal backslash immediately followed by the letter `n` (this includes
every string with embedded backslashes, quotes and newlines in any other
arrangement): `unescape (escape x) = x`, and on the image of `escape` over
such strings, `escape (unescape y) = y`. -/
theorem C1_codec_round_trip :
    (∀ s : List Char, noBsN s = true → unescape (escape s) = s) ∧
    (∀ s : List Char, noBsN s = true → escape (unescape (escape s)) = escape s) := by
  refine ⟨unescape_escape, ?_⟩
  intro s h
  rw [unescape_escape s h]

/-- Witness for C1: a concrete string containing a backslash, a quote and a
newline round-trips through escape/unescape. -/
theorem C1_codec_round_trip_witness :
    unescape (escape ['\\', '\\', '"', '\n', 'x']) = ['\\', '\\', '"', '\n', 'x'] :=
  C1_codec_round_trip.1 ['\\', '\\', '"', '\n', 'x'] (by decide)

/-! ## Verifier aggregate view (`scripts/verify_translations.py`, `main`)

A parsed translation table maps either a simple key (one string) or a
plural key (a pair of strings) to a translated value; iteration order of a
Python dict is insertion order, so a table is modelled as an association
list. -/

/-- Key of a translation entry: a simple msgid, or a (msgid, msgid_plural)
pair for plural entries. -/
abbrev KeyT := List Char ⊕ (List Char × List Char)

/-- Predicate: this pair carries key `k`. -/
def keyIs (k : KeyT) (p : KeyT × List Char) : Bool := decide (p.1 = k)

/-- Predicate: this pair carries key `k` with a non-empty value. -/
def nonEmptyAt (k : KeyT) (p : KeyT × List Char) : Bool := decide (p.1 = k ∧ p.2 ≠ [])

/-- Python `dict.get`-style lookup on an association list (first matching
pair; the aggregates below only ever insert absent keys, so the first
match is the only match). -/
def lookupA (m : List (KeyT × List Char)) (k : KeyT) : Option (List Char) :=
  (m.find? (keyIs k)).map (·.2)

/-- The inner loop of `main` (verify_translations.py lines 136-139) run on
one file's parsed entries: `if val and key not in all_translated:
all_translated[key] = val`. -/
def addFileTranslations (acc : List (KeyT × List Char)) :
    List (KeyT × List Char) → List (KeyT × List Char)
  | [] => acc
  | (k, v) :: rest =>
      addFileTranslations
        (if v ≠ [] ∧ (lookupA acc k).isNone then acc ++ [(k, v)] else acc) rest

/-- `all_translated` built over all current per-domain files,
in the given (lexicographically sorted) file order. -/
def allTranslated (files : List (List (KeyT × List Char))) : List (KeyT × List Char) :=
  files.foldl addFileTranslations []

/-- `all_present`: every key occurring in any current file (set membership
is all the script uses, so the multiset of keys is an adequate model). -/
def allPresent (files : List (List (KeyT × List Char))) : List KeyT :=
  files.flatten.map (·.1)

/-- Stated from the amended claim's words: the value for `k` is the one
carried by the earliest entry, scanning files in order, whose key is `k`
and whose value is non-empty. -/
def specFirstNonempty (files : List (List (KeyT × List Char))) (k : KeyT) :
    Option (List Char) :=
  (files.flatten.find? (nonEmptyAt k)).map (·.2)

theorem lookupA_append_self (acc : List (KeyT × List Char)) (k : KeyT) (v : List Char)
    (h : lookupA acc k = none) : lookupA (acc ++ [(k, v)]) k = some v := by
  have hfind : acc.find? (keyIs k) = none := by
    rcases hf : acc.find? (keyIs k) with _ | w
    · rfl
    · unfold lookupA at h; rw [hf] at h; simp at h
  unfold lookupA
  rw [List.find?_append, hfind]
  have h1 : List.find? (keyIs k) [(k, v)] = some (k, v) :=
    List.find?_cons_of_pos _ (by simp [keyIs])
  rw [h1]
  rfl

theorem lookupA_append_other (acc : List (KeyT × List Char)) (k k' : KeyT) (v : List Char)
    (h : k' ≠ k) : lookupA (acc ++ [(k', v)]) k = lookupA acc k := by
  unfold lookupA
  rw [List.find?_append]
  have h1 : List.find? (keyIs k) [(k', v)] = none := by
    rw [List.find?_cons_of_neg _ (by simp [keyIs, h])]
    rfl
  rw [h1]
  rcases hf : acc.find? (keyIs k) with _ | w <;> rfl

theorem addFT_lookup (stream : List (KeyT × List Char)) :
    ∀ (acc : List (KeyT × List Char)) (k : KeyT),
      lookupA (addFileTranslations acc stream) k =
        match lookupA acc k with
        | some w => some w
        | none => (stream.find? (nonEmptyAt k)).map (·.2) := by
  induction stream with
  | nil =>
    intro acc k
    rcases h : lookupA acc k with _ | w <;> simp [addFileTranslations, h, List.find?]
  | cons p rest ih =>
    intro acc k
    obtain ⟨k', v'⟩ := p
    show lookupA (addFileTranslations (if _ then _ else _) rest) k = _
    by_cases hk : k' = k
    · subst hk
      rcases hacc : lookupA acc k' with _ | w
      · by_cases hv : v' = []
        · subst hv
          rw [if_neg (by simp)]
          rw [ih, hacc]
          rw [List.find?_cons_of_neg _ (by simp [nonEmptyAt])]
        · rw [if_pos ⟨hv, rfl⟩]
          rw [ih, lookupA_append_self acc k' v' hacc]
          rw [List.find?_cons_of_pos _ (by simp [nonEmptyAt, hv])]
          rfl
      · rw [if_neg (by simp)]
        rw [ih, hacc]
    · have hne : (nonEmptyAt k (k', v') = true) → False := by
        simp only [nonEmptyAt, decide_eq_true_eq]
        intro hc
        exact hk hc.1
      have hstep : List.find? (nonEmptyAt k) ((k', v') :: rest) =
          List.find? (nonEmptyAt k) rest :=
        List.find?_cons_of_neg _ hne
      rcases hacc : lookupA acc k with _ | w
      · by_cases hcond : v' ≠ [] ∧ (lookupA acc k').isNone = true
        · rw [if_pos hcond, ih, lookupA_append_other acc k k' v' hk, hacc, hstep]
        · rw [if_neg hcond, ih, hacc, hstep]
      · by_cases hcond : v' ≠ [] ∧ (lookupA acc k').isNone = true
        · rw [if_pos hcond, ih, lookupA_append_other acc k k' v' hk, hacc]
        · rw [if_neg hcond, ih, hacc]

theorem addFT_append (xs ys acc : List (KeyT × List Char)) :
    addFileTranslations acc (xs ++ ys) =
      addFileTranslations (addFileTranslations acc xs) ys := by
  induction xs generalizing acc with
  | nil => simp [addFileTranslations]
  | cons p rest ih =>
    obtain ⟨k, v⟩ := p
    show addFileTranslations _ (rest ++ ys) = _
    rw [ih]
    rfl

theorem allTranslated_stream (files : List (List (KeyT × List Char))) :
    ∀ acc, files.foldl addFileTranslations acc = addFileTranslations acc files.flatten := by
  induction files with
  | nil => intro acc; simp [List.foldl, List.flatten, addFileTranslations]
  | cons f fs ih =>
    intro acc
    show fs.foldl addFileTranslations (addFileTranslations acc f) = _
    rw [ih, List.flatten, ← addFT_append]

/-- The verifier's aggregate mapping realizes first-nonempty-wins. -/
theorem allTranslated_lookup (files : List (List (KeyT × List Char))) (k : KeyT) :
    lookupA (allTranslated files) k = specFirstNonempty files k := by
  unfold allTranslated specFirstNonempty
  rw [allTranslated_stream files [], addFT_lookup]
  rfl

/-- C2 counterexample: two files both carry key `k` with non-empty values
`"a"` (earlier file) and `"b"` (later file); the aggregate view keeps the
earlier file's `"a"`, so the later file's non-empty value does not win. -/
theorem C2_counterexample_first_wins :
    lookupA (allTranslated [[(Sum.inl ['k'], ['a'])], [(Sum.inl ['k'], ['b'])]])
        (Sum.inl ['k']) = some ['a'] ∧
    ¬ (lookupA (allTranslated [[(Sum.inl ['k'], ['a'])], [(Sum.inl ['k'], ['b'])]])
        (Sum.inl ['k']) = some ['b']) := by
  constructor
  · rfl
  · intro h
    rw [show lookupA (allTranslated [[(Sum.inl ['k'], ['a'])], [(Sum.inl ['k'], ['b'])]])
        (Sum.inl ['k']) = some ['a'] from rfl] at h
    simp at h

/-- C2 (amended): in the verifier's aggregate key-to-translated-value view,
when the same key occurs with a non-empty value in more than one file, the
value from the FIRST such file (in the processed file order) wins; a later
file's non-empty value never overwrites an earlier one. -/
theorem C2_aggregate_first_nonempty_wins
    (files : List (List (KeyT × List Char))) (k : KeyT) :
    lookupA (allTranslated files) k = specFirstNonempty files k :=
  allTranslated_lookup files k

/-! ## Verifier defect sets and exit code
(`scripts/verify_translations.py`, `main`, lines 149-181). -/

/-- Python `in` on a list of keys. -/
def memKey (k : KeyT) : List KeyT → Bool
  | [] => false
  | a :: r => decide (a = k) || memKey k r

theorem memKey_iff (k : KeyT) (l : List KeyT) : memKey k l = true ↔ k ∈ l := by
  induction l with
  | nil => simp [memKey]
  | cons a r ih =>
    simp only [memKey, Bool.or_eq_true, decide_eq_true_eq, ih, List.mem_cons]
    constructor
    · rintro (h | h)
      · exact Or.inl h.symm
      · exact Or.inr h
    · rintro (h | h)
      · exact Or.inl h.symm
      · exact Or.inr h

/-- `missing_from_any = [k for k in backup if k not in all_present]`. -/
def missingList (backup : List (KeyT × List Char))
    (files : List (List (KeyT × List Char))) : List KeyT :=
  (backup.map (·.1)).filter (fun k : KeyT => ! memKey k (allPresent files))

/-- `backup_translated = {k: v for k, v in backup.items() if v}`. -/
def backupTranslated (backup : List (KeyT × List Char)) : List (KeyT × List Char) :=
  backup.filter (fun p => decide (p.2 ≠ []))

/-- `lost_translations = [k for k in backup_translated if not
all_translated.get(k)]` (Python truthiness: `None` and the empty string
are falsy). -/
def lostList (backup : List (KeyT × List Char))
    (files : List (List (KeyT × List Char))) : List KeyT :=
  ((backupTranslated backup).map (·.1)).filter (fun k =>
    match lookupA (allTranslated files) k with
    | none => true
    | some v => decide (v = []))

/-- Exit code of the verifier: `sys.exit(1)` when either defect list is
non-empty, otherwise the process falls off `main` with exit code 0. -/
def verifierExit (backup : List (KeyT × List Char))
    (files : List (List (KeyT × List Char))) : Nat :=
  if missingList backup files ≠ [] ∨ lostList backup files ≠ [] then 1 else 0

/-- Stated from the spec's words: some backup key is absent from the union
of all current files' key sets. -/
def specMissing (backup : List (KeyT × List Char))
    (files : List (List (KeyT × List Char))) : Prop :=
  ∃ p ∈ backup, ∀ f ∈ files, ∀ q ∈ f, q.1 ≠ p.1

/-- Stated from the spec's words: some backup key had a non-empty backup
value but no current file carries a non-empty value for it. -/
def specLost (backup : List (KeyT × List Char))
    (files : List (List (KeyT × List Char))) : Prop :=
  ∃ p ∈ backup, p.2 ≠ [] ∧ ∀ f ∈ files, ∀ q ∈ f, q.1 = p.1 → q.2 = []

theorem missing_iff (backup : List (KeyT × List Char))
    (files : List (List (KeyT × List Char))) :
    missingList backup files ≠ [] ↔ specMissing backup files := by
  unfold missingList specMissing
  rw [Ne, List.filter_eq_nil_iff]
  push_neg
  constructor
  · rintro ⟨a, ha, hpred⟩
    rw [List.mem_map] at ha
    obtain ⟨p, hp, rfl⟩ := ha
    refine ⟨p, hp, ?_⟩
    intro f hf q hq hqa
    rw [Bool.not_eq_true', ← Bool.not_eq_true, memKey_iff] at hpred
    exact hpred (by
      unfold allPresent
      rw [List.mem_map]
      exact ⟨q, List.mem_flatten.2 ⟨f, hf, hq⟩, hqa⟩)
  · rintro ⟨p, hp, habsent⟩
    refine ⟨p.1, List.mem_map.2 ⟨p, hp, rfl⟩, ?_⟩
    rw [Bool.not_eq_true', ← Bool.not_eq_true, memKey_iff]
    intro hmem
    unfold allPresent at hmem
    rw [List.mem_map] at hmem
    obtain ⟨q, hq, hqa⟩ := hmem
    obtain ⟨f, hf, hqf⟩ := List.mem_flatten.1 hq
    exact habsent f hf q hqf hqa

theorem lost_char (files : List (List (KeyT × List Char))) (k : KeyT) :
    ((match lookupA (allTranslated files) k with
      | none => true
      | some v => decide (v = [])) = true) ↔
    (∀ f ∈ files, ∀ q ∈ f, q.1 = k → q.2 = []) := by
  rw [allTranslated_lookup]
  unfold specFirstNonempty
  rcases hf : files.flatten.find? (nonEmptyAt k) with _ | q
  · rw [List.find?_eq_none] at hf
    constructor
    · intro _ f hfm q hq hqk
      by_contra hne
      exact absurd (by simp [nonEmptyAt, hqk, hne] : nonEmptyAt k q = true)
        (hf q (List.mem_flatten.2 ⟨f, hfm, hq⟩))
    · intro _
      rfl
  · have hq2 : nonEmptyAt k q = true := List.find?_some hf
    have hmem : q ∈ files.flatten := List.mem_of_find?_eq_some hf
    rw [nonEmptyAt, decide_eq_true_eq] at hq2
    show decide (q.2 = []) = true ↔ _
    rw [decide_eq_true_eq]
    constructor
    · intro hfalse
      exact absurd hfalse hq2.2
    · intro hall
      obtain ⟨f, hfm, hqf⟩ := List.mem_flatten.1 hmem
      exact absurd (hall f hfm q hqf hq2.1) hq2.2

theorem lost_iff (backup : List (KeyT × List Char))
    (files : List (List (KeyT × List Char))) :
    lostList backup files ≠ [] ↔ specLost backup files := by
  unfold lostList specLost
  rw [Ne, List.filter_eq_nil_iff]
  push_neg
  constructor
  · rintro ⟨a, ha, hpred⟩
    rw [List.mem_map] at ha
    obtain ⟨p, hp, rfl⟩ := ha
    unfold backupTranslated at hp
    rw [List.mem_filter, decide_eq_true_eq] at hp
    exact ⟨p, hp.1, hp.2, (lost_char files p.1).1 hpred⟩
  · rintro ⟨p, hp, hv, hall⟩
    refine ⟨p.1, List.mem_map.2 ⟨p, ?_, rfl⟩, ?_⟩
    · unfold backupTranslated
      rw [List.mem_filter, decide_eq_true_eq]
      exact ⟨hp, hv⟩
    · exact (lost_char files p.1).2 hall

/-- C5: the Verifier terminates with a non-zero exit code if and only if at
least one of its two defect sets is non-empty: `missing` (backup keys
absent from the union of all current files' key sets) or `lost` (backup
keys with a non-empty backup value for which no current file carries a
non-empty value); with both sets empty it exits 0. -/
theorem C5_verifier_exit_iff_defects (backup : List (KeyT × List Char))
    (files : List (List (KeyT × List Char))) :
    verifierExit backup files ≠ 0 ↔
      (specMissing backup files ∨ specLost backup files) := by
  unfold verifierExit
  by_cases h : missingList backup files ≠ [] ∨ lostList backup files ≠ []
  · rw [if_pos h]
    simp only [ne_eq, one_ne_zero, not_false_eq_true, true_iff]
    rcases h with h | h
    · exact Or.inl ((missing_iff backup files).1 h)
    · exact Or.inr ((lost_iff backup files).1 h)
  · rw [if_neg h]
    simp only [ne_eq, not_true_eq_false, false_iff]
    push_neg at h
    rintro (hs | hs)
    · exact absurd ((missing_iff backup files).2 hs) (by simpa using h.1)
    · exact absurd ((lost_iff backup files).2 hs) (by simpa using h.2)

/-! ## PO block utilities (`scripts/migrate_translations.py`)

`_fill_block` works on the raw block string with `re.MULTILINE` anchors
(which split on the newline character only); the parser works on
`block.strip().splitlines()` lines. -/

/-- Split on newline characters; the inverse of `joinNl`. `re.MULTILINE`
`^`/`$` anchor positions are exactly the boundaries of these lines. -/
def splitNl : List Char → List (List Char)
  | [] => [[]]
  | c :: r =>
    if c = '\n' then [] :: splitNl r
    else match splitNl r with
      | [] => [[c]]
      | l :: ls => (c :: l) :: ls

/-- Join lines with newline characters. -/
def joinNl : List (List Char) → List Char
  | [] => []
  | [l] => l
  | l :: ls => l ++ '\n' :: joinNl ls

/-- Python `str.strip()` with no argument: remove leading and trailing
whitespace. -/
def pyStrip (s : List Char) : List Char :=
  ((s.dropWhile isPySpace).reverse.dropWhile isPySpace).reverse

/-- Line-break characters recognized by Python `str.splitlines`. -/
def isLineBreak (c : Char) : Bool :=
  c = '\n' || c = '\r' || c = '\x0b' || c = '\x0c' || c = '\x1c' ||
  c = '\x1d' || c = '\x1e' || c = '\x85' || c = '\u2028' || c = '\u2029'

/-- Python `str.splitlines()`: split at line breaks (CRLF counts as one
break), no trailing empty line. -/
def pySplitlines : List Char → List (List Char)
  | [] => []
  | '\r' :: '\n' :: r => [] :: pySplitlines r
  | c :: r =>
    if isLineBreak c then [] :: pySplitlines r
    else match pySplitlines r with
      | [] => [[c]]
      | l :: ls => (c :: l) :: ls

/-- Python substring test `pat in s`. -/
def hasInfix (pat : List Char) : List Char → Bool
  | [] => pat.isEmpty
  | c :: r => pat.isPrefixOf (c :: r) || hasInfix pat r

/-- Python truthiness of `block.strip()`: empty after stripping iff every
character is whitespace. -/
def isBlankStr (s : List Char) : Bool := s.all isPySpace

/-- Suffixes of the string starting just after each newline: together with
the whole string these are the `re.MULTILINE` `^`-anchor candidates, in
scan order. -/
def lineTails : List Char → List (List Char)
  | [] => []
  | c :: r => if c = '\n' then r :: lineTails r else lineTails r

/-- First candidate on which the matcher succeeds (models `re.search`
scanning positions left to right). -/
def firstSome {α : Type} (f : List Char → Option α) : List (List Char) → Option α
  | [] => none
  | s :: rest =>
    match f s with
    | some a => some a
    | none => firstSome f rest

/-- `re.search` with a `^`-anchored MULTILINE pattern: try the pattern
matcher at the string start and after every newline, in order. -/
def searchML {α : Type} (f : List Char → Option α) (s : List Char) : Option α :=
  firstSome f (s :: lineTails s)

/-- Parse the regex fragment `((?:[^"\\]|\\.)*)"`: the body of a quoted PO
string (escape pairs kept raw) followed by the closing quote; `.` does not
match a newline, and the alternation is deterministic, so no backtracking
is needed. Returns the raw group and the rest after the closing quote. -/
def parseGroup : List Char → Option (List Char × List Char)
  | [] => none
  | '"' :: r => some ([], r)
  | ['\\'] => none
  | '\\' :: c :: r =>
    if c = '\n' then none
    else (parseGroup r).map (fun g => ('\\' :: c :: g.1, g.2))
  | c :: r => (parseGroup r).map (fun g => (c :: g.1, g.2))

/-- Matcher for `^KEYWORD\s+"((?:[^"\\]|\\.)*)"` at one anchor candidate
(`\s` may cross a newline, exactly as in the Python pattern). Returns the
raw group. -/
def matchDeclAt (kw : List Char) (s : List Char) : Option (List Char) :=
  if kw.isPrefixOf s then
    let r1 := (s.drop kw.length)
    if (r1.takeWhile isPySpace).isEmpty then none
    else
      match r1.dropWhile isPySpace with
      | '"' :: r2 => (parseGroup r2).map (·.1)
      | _ => none
  else none

/-- Is some line of the list exactly this string (a full-line
`^...$` MULTILINE match)? -/
def hasLine (pat : List Char) (ls : List (List Char)) : Bool :=
  ls.any (fun l => decide (l = pat))

/-- The line `msgstr ""`. -/
def msgstrEmptyLine : List Char := "msgstr \"\"".toList

/-- The line `msgstr[0] ""`. -/
def msgstr0EmptyLine : List Char := "msgstr[0] \"\"".toList

/-- The line `msgid ""`. -/
def msgidEmptyLine : List Char := "msgid \"\"".toList

/-- `translations.get(key, "")`. -/
def lookupPo (tbl : List (KeyT × List Char)) (k : KeyT) : List Char :=
  ((tbl.find? (keyIs k)).map (·.2)).getD []

/-- Processing of a `re.sub` string replacement template (CPython
`sre_parse.parse_template`): `\\`, `\n`, `\a`, `\b`, `\f`, `\r`, `\t`,
`\v` become the escaped character, `\1` becomes group 1 (`g1`), any other
escaped ASCII letter or digit is an error (`none`), any other escaped
character is left alone, and a trailing lone backslash is an error. -/
def subTemplate (g1 : List Char) : List Char → Option (List Char)
  | [] => some []
  | ['\\'] => none
  | '\\' :: c :: r =>
    if c = '\\' then (subTemplate g1 r).map (fun t => '\\' :: t)
    else if c = 'n' then (subTemplate g1 r).map (fun t => '\n' :: t)
    else if c = '1' then (subTemplate g1 r).map (fun t => g1 ++ t)
    else if c = 'a' then (subTemplate g1 r).map (fun t => Char.ofNat 7 :: t)
    else if c = 'b' then (subTemplate g1 r).map (fun t => Char.ofNat 8 :: t)
    else if c = 'f' then (subTemplate g1 r).map (fun t => Char.ofNat 12 :: t)
    else if c = 'r' then (subTemplate g1 r).map (fun t => '\r' :: t)
    else if c = 't' then (subTemplate g1 r).map (fun t => '\t' :: t)
    else if c = 'v' then (subTemplate g1 r).map (fun t => Char.ofNat 11 :: t)
    else if c.isDigit then none
    else if c.isAlpha then none
    else (subTemplate g1 r).map (fun t => '\\' :: c :: t)
  | c :: r => (subTemplate g1 r).map (fun t => c :: t)

/-- `_fill_block(block, translations)` of `scripts/migrate_translations.py`
(lines 171-231). `none` models an exception escaping the function (a bad
replacement-template escape). The two `re.sub` calls replace every line
equal to the empty declaration by the processed replacement template. -/
def fill_block (block : List Char) (tbl : List (KeyT × List Char)) :
    Option (List Char × Nat × Nat) :=
  if isBlankStr block || ! hasInfix "msgid".toList block then some (block, 0, 0)
  else
    match searchML (matchDeclAt "msgid".toList) block with
    | none => some (block, 0, 0)
    | some g =>
      if unescape g = [] then some (block, 0, 0)
      else
        match searchML (matchDeclAt "msgid_plural".toList) block with
        | some gp =>
          if hasLine msgstr0EmptyLine (splitNl block) then
            if lookupPo tbl (Sum.inr (unescape g, unescape gp)) ≠ [] then
              match subTemplate ("msgstr[0] ".toList)
                  ('\\' :: '1' :: '"' ::
                    (escape (lookupPo tbl (Sum.inr (unescape g, unescape gp))) ++ ['"'])) with
              | none => none
              | some repl =>
                some (joinNl ((splitNl block).map (fun l =>
                  if l = msgstr0EmptyLine then repl else l)), 1, 1)
            else some (block, 0, 1)
          else some (block, 0, 1)
        | none =>
          if hasLine msgstrEmptyLine (splitNl block) then
            if lookupPo tbl (Sum.inl (unescape g)) ≠ [] then
              match subTemplate []
                  ("msgstr \"".toList ++ escape (lookupPo tbl (Sum.inl (unescape g))) ++ ['"']) with
              | none => none
              | some repl =>
                some (joinNl ((splitNl block).map (fun l =>
                  if l = msgstrEmptyLine then repl else l)), 1, 1)
            else some (block, 0, 1)
          else some (block, 0, 1)

/-- The key `_fill_block` looks up in the table (derived from the same
searches `fill_block` performs): the unescaped FIRST-LINE fragment of the
msgid declaration, paired with the plural fragment when one is present;
`none` when the block is skipped before any lookup. -/
def fillKey (block : List Char) : Option KeyT :=
  match searchML (matchDeclAt "msgid".toList) block with
  | none => none
  | some g =>
    if unescape g = [] then none
    else
      match searchML (matchDeclAt "msgid_plural".toList) block with
      | some gp => some (Sum.inr (unescape g, unescape gp))
      | none => some (Sum.inl (unescape g))

/-! ## PO block parsing (`parse_po` of `scripts/migrate_translations.py`;
duplicated verbatim as `parse_po_entries` in
`scripts/verify_translations.py`). -/

/-- Does the line start with a double quote (`lines[j].startswith('"')`)? -/
def startsQuote (l : List Char) : Bool := decide (l.head? = some '"')

/-- Index of the first double quote in a line (`line.index('"')`);
`none` models the `ValueError` Python raises when there is none. -/
def firstQuoteIdx (l : List Char) : Option Nat := l.findIdx? (fun c => decide (c = '"'))

/-- Accumulate continuation lines: while the next line starts with a
quote, append its content stripped of its first and last character
(`lines[j][1:-1]`); return the accumulated value and the remaining
lines. -/
def contAccum (v : List Char) : List (List Char) → List Char × List (List Char)
  | [] => (v, [])
  | l :: ls =>
    if startsQuote l then contAccum (v ++ (l.drop 1).dropLast) ls
    else (v, l :: ls)

theorem contAccum_length (ls : List (List Char)) :
    ∀ v, (contAccum v ls).2.length ≤ ls.length := by
  induction ls with
  | nil => intro v; simp [contAccum]
  | cons l ls ih =>
    intro v
    by_cases h : startsQuote l = true
    · rw [contAccum, if_pos h]
      exact le_trans (ih _) (Nat.le_succ _)
    · rw [contAccum, if_neg h]

/-- The state accumulated by the per-block parsing loop. -/
structure PState where
  msgid : Option (List Char)
  msgid_plural : Option (List Char)
  msgstr : Option (List Char)
  msgstr_plural : List (Nat × List Char)

/-- The initial loop state (all declarations unseen). -/
def initPState : PState := ⟨none, none, none, []⟩

/-- Content of `group(2)` of `re.match(r'msgstr\[(\d+)\]\s+"(.*)"', line)`:
everything before the LAST quote (the greedy `(.*)` runs to the final
quote of the line); `none` when the line has no quote at all. -/
def beforeLastQuote : List Char → Option (List Char)
  | [] => none
  | c :: r =>
    match beforeLastQuote r with
    | some g => some (c :: g)
    | none => if c = '"' then some [] else none

/-- Numeric value of a digit string. -/
def digitsToNat (ds : List Char) : Nat := ds.foldl (fun n c => n * 10 + (c.toNat - 48)) 0

/-- `re.match(r'msgstr\[(\d+)\]\s+"(.*)"', line)`: returns the plural-form
index and the raw group-2 value. -/
def matchMsgstrIdx (l : List Char) : Option (Nat × List Char) :=
  if "msgstr[".toList.isPrefixOf l then
    let r1 := l.drop 7
    if (r1.takeWhile Char.isDigit).isEmpty then none
    else
      match r1.dropWhile Char.isDigit with
      | ']' :: r2 =>
        if (r2.takeWhile isPySpace).isEmpty then none
        else
          match r2.dropWhile isPySpace with
          | '"' :: r3 => (beforeLastQuote r3).map (fun g => (digitsToNat (r1.takeWhile Char.isDigit), g))
          | _ => none
      | _ => none
  else none

/-- Python dict assignment `m[i] = v` on an association list. -/
def updateIdx (m : List (Nat × List Char)) (i : Nat) (v : List Char) :
    List (Nat × List Char) :=
  if m.any (fun p => decide (p.1 = i)) then
    m.map (fun p => if p.1 = i then (i, v) else p)
  else m ++ [(i, v)]

/-- `msgstr_plural.get(0, "")`. -/
def getIdx (m : List (Nat × List Char)) (i : Nat) : List Char :=
  ((m.find? (fun p => decide (p.1 = i))).map (·.2)).getD []

/-- The `while i < len(lines)` loop of `parse_po` (and, verbatim, of
`parse_po_entries`): dispatch on the current line, read a possibly
multi-line string for each declaration keyword, and remember the last
value seen for each field. `none` models the `ValueError` of
`line.index('"')` on a keyword line without a quote. -/
def parseLines (st : PState) : List (List Char) → Option PState
  | [] => some st
  | l :: ls =>
    if "msgid ".toList.isPrefixOf l then
      match firstQuoteIdx l with
      | none => none
      | some q =>
        parseLines { st with msgid := some (unescape (contAccum ((l.drop (q+1)).dropLast) ls).1) }
          (contAccum ((l.drop (q+1)).dropLast) ls).2
    else if "msgid_plural ".toList.isPrefixOf l then
      match firstQuoteIdx l with
      | none => none
      | some q =>
        parseLines { st with msgid_plural := some (unescape (contAccum ((l.drop (q+1)).dropLast) ls).1) }
          (contAccum ((l.drop (q+1)).dropLast) ls).2
    else if "msgstr \"".toList.isPrefixOf l then
      match firstQuoteIdx l with
      | none => none
      | some q =>
        parseLines { st with msgstr := some (unescape (contAccum ((l.drop (q+1)).dropLast) ls).1) }
          (contAccum ((l.drop (q+1)).dropLast) ls).2
    else
      match matchMsgstrIdx l with
      | some iv =>
        parseLines
          { st with msgstr_plural :=
              updateIdx st.msgstr_plural iv.1 (unescape (contAccum iv.2 ls).1) }
          (contAccum iv.2 ls).2
      | none => parseLines st ls
termination_by ls => ls.length
decreasing_by
  all_goals simp only [List.length_cons]
  · exact Nat.lt_succ_of_le (contAccum_length ls _)
  · exact Nat.lt_succ_of_le (contAccum_length ls _)
  · exact Nat.lt_succ_of_le (contAccum_length ls _)
  · exact Nat.lt_succ_of_le (contAccum_length ls _)
  · exact Nat.lt_succ_self _

/-- The per-block step of `parse_po`: run the loop on the block's lines,
then either skip the block (no msgid, or empty-msgid header) or produce
its table entry; `none` models an exception. -/
def parseBlockM (lines : List (List Char)) : Option (Option (KeyT × List Char)) :=
  match parseLines initPState lines with
  | none => none
  | some st =>
    match st.msgid with
    | none => some none
    | some m =>
      if m = [] then some none
      else
        match st.msgid_plural with
        | some mp => some (some (Sum.inr (m, mp), getIdx st.msgstr_plural 0))
        | none =>
          match st.msgstr with
          | some v => some (some (Sum.inl m, v))
          | none => some none

/-- The per-block step of `parse_po_entries` of
`scripts/verify_translations.py`: that script duplicates `parse_po` and
`_read_string`/`_skip_string` verbatim (same keyword tests, same regex,
same skip conditions), so its embedding is the same function. -/
def parseBlockV (lines : List (List Char)) : Option (Option (KeyT × List Char)) :=
  parseBlockM lines

/-- C3: evaluation of `_fill_block` at a failing input. For the block
`msgid "k"` / `msgstr ""` and a translation `a\b` (with one literal
backslash), the code writes the line `msgstr "a\b"` — the `re.sub`
replacement-template processing collapses the `\\` produced by `_escape`
back to a single backslash — whereas the claim requires the written bytes
to be exactly the escaped translation `a\\b`. -/
theorem C3_fill_mangles_escaped_translation :
    fill_block "msgid \"k\"\nmsgstr \"\"".toList [(Sum.inl ['k'], ['a', '\\', 'b'])] =
      some ("msgid \"k\"\nmsgstr \"a\\b\"".toList, 1, 1) ∧
    "msgid \"k\"\nmsgstr \"a\\b\"".toList ≠
      "msgid \"k\"\nmsgstr \"".toList ++ escape ['a', '\\', 'b'] ++ ['"'] := by
  exact ⟨by decide, by decide⟩

/-- C6: the fill operation never modifies a block none of whose lines is
exactly the empty declaration (`msgstr ""` or `msgstr[0] ""`), and never
writes when the looked-up translation is absent or empty: in either case
the block is returned byte-identical and the filled count is 0. -/
theorem C6_fill_frame (block : List Char) (tbl : List (KeyT × List Char))
    (h : (∀ l ∈ splitNl block, l ≠ msgstrEmptyLine ∧ l ≠ msgstr0EmptyLine) ∨
         (∀ k, fillKey block = some k → lookupPo tbl k = [])) :
    ∃ total, fill_block block tbl = some (block, 0, total) := by
  unfold fill_block
  by_cases h1 : (isBlankStr block || ! hasInfix "msgid".toList block) = true
  · rw [if_pos h1]; exact ⟨0, rfl⟩
  rw [if_neg h1]
  split
  · exact ⟨0, rfl⟩
  next g hs =>
    split
    · exact ⟨0, rfl⟩
    next h2 =>
      split
      next gp hp =>
        split
        next h3 =>
          split
          next hnz =>
            exfalso
            rcases h with hA | hB
            · unfold hasLine at h3
              rw [List.any_eq_true] at h3
              obtain ⟨l, hl, hl2⟩ := h3
              rw [decide_eq_true_eq] at hl2
              exact (hA l hl).2 hl2
            · exact hnz (hB _ (by unfold fillKey; rw [hs, hp]; simp [h2]))
          next hnz => exact ⟨1, rfl⟩
        next h3 => exact ⟨1, rfl⟩
      next hp =>
        split
        next h3 =>
          split
          next hnz =>
            exfalso
            rcases h with hA | hB
            · unfold hasLine at h3
              rw [List.any_eq_true] at h3
              obtain ⟨l, hl, hl2⟩ := h3
              rw [decide_eq_true_eq] at hl2
              exact (hA l hl).1 hl2
            · exact hnz (hB _ (by unfold fillKey; rw [hs, hp]; simp [h2]))
          next hnz => exact ⟨1, rfl⟩
        next h3 => exact ⟨1, rfl⟩

/-- Witness for C6: a block whose `msgstr` already carries a non-empty
value is returned unchanged with filled count 0 even though the table has
a (different, non-empty) translation for its key. -/
theorem C6_fill_frame_witness :
    ∃ total, fill_block "msgid \"k\"\nmsgstr \"v\"".toList [(Sum.inl ['k'], ['w'])] =
      some ("msgid \"k\"\nmsgstr \"v\"".toList, 0, total) :=
  C6_fill_frame _ _ (Or.inl (by decide))

/-- C7: evaluation at a failing input. For a block whose msgid spans two
physical lines (`msgid "ab"` continued by `"cd"`), parse produces the
accumulated key `abcd`, but `_fill_block` looks up only the unescaped
first-line fragment `ab` (its continuation-collection loop is dead code),
so with a table carrying a non-empty translation for `abcd` the empty
`msgstr ""` is left unfilled. -/
theorem C7_fill_key_ignores_continuations :
    parseBlockM (pySplitlines (pyStrip "msgid \"ab\"\n\"cd\"\nmsgstr \"\"".toList)) =
      some (some (Sum.inl "abcd".toList, [])) ∧
    fillKey "msgid \"ab\"\n\"cd\"\nmsgstr \"\"".toList = some (Sum.inl "ab".toList) ∧
    fill_block "msgid \"ab\"\n\"cd\"\nmsgstr \"\"".toList
        [(Sum.inl "abcd".toList, ['X'])] =
      some ("msgid \"ab\"\n\"cd\"\nmsgstr \"\"".toList, 0, 1) := by
  refine ⟨?_, by decide, by decide⟩
  have hlines : pySplitlines (pyStrip "msgid \"ab\"\n\"cd\"\nmsgstr \"\"".toList) =
      ["msgid \"ab\"".toList, "\"cd\"".toList, "msgstr \"\"".toList] := by decide
  rw [hlines]
  simp [parseBlockM, parseLines, contAccum, firstQuoteIdx, initPState, startsQuote,
    matchMsgstrIdx, updateIdx, getIdx, unescape, unN, unQ, unB, List.isPrefixOf,
    List.findIdx?, beforeLastQuote]

/-! ## Header blocks (claim C9): helper lemmas on lines, anchors and the
parser loop. -/

theorem splitNl_ne_nil (s : List Char) : splitNl s ≠ [] := by
  cases s with
  | nil => simp [splitNl]
  | cons c r =>
    unfold splitNl
    by_cases hc : c = '\n'
    · simp [hc]
    · rw [if_neg hc]
      rcases splitNl r with _ | ⟨hd, tl⟩ <;> simp

theorem splitNl_head_prefix : ∀ (r hd : List Char) (tl : List (List Char)),
    splitNl r = hd :: tl → hd <+: r := by
  intro r
  induction r with
  | nil =>
    intro hd tl h
    simp [splitNl] at h
    rw [h.1]
  | cons c r ih =>
    intro hd tl h
    by_cases hc : c = '\n'
    · subst hc
      simp [splitNl] at h
      rw [h.1]
      exact List.nil_prefix
    · rw [splitNl, if_neg hc] at h
      rcases hr : splitNl r with _ | ⟨hd', tl'⟩
      · exact absurd hr (splitNl_ne_nil r)
      · rw [hr] at h
        have h1 : hd = c :: hd' := ((List.cons.injEq ..).mp h).1.symm
        subst h1
        exact List.cons_prefix_cons.mpr ⟨rfl, ih hd' tl' hr⟩

theorem splitNl_no_nl : ∀ (s l : List Char), l ∈ splitNl s → ¬ '\n' ∈ l := by
  intro s
  induction s with
  | nil =>
    intro l hl
    simp [splitNl] at hl
    simp [hl]
  | cons c r ih =>
    intro l hl
    by_cases hc : c = '\n'
    · subst hc
      simp [splitNl] at hl
      rcases hl with hl | hl
      · simp [hl]
      · exact ih l hl
    · rw [splitNl, if_neg hc] at hl
      rcases hr : splitNl r with _ | ⟨hd, tl⟩
      · exact absurd hr (splitNl_ne_nil r)
      · rw [hr] at hl
        rcases List.mem_cons.mp hl with hl | hl
        · subst hl
          intro hmem
          rcases List.mem_cons.mp hmem with he | he
          · exact hc he.symm
          · exact ih hd (by rw [hr]; exact List.mem_cons_self hd tl) he
        · exact ih l (by rw [hr]; exact List.mem_cons_of_mem hd hl)

theorem splitNl_decompose : ∀ (b l : List Char) (ls : List (List Char)),
    splitNl b = l :: ls →
    (ls = [] ∧ b = l) ∨ (∃ rest, b = l ++ '\n' :: rest ∧ splitNl rest = ls) := by
  intro b
  induction b with
  | nil =>
    intro l ls h
    simp [splitNl] at h
    exact Or.inl ⟨h.2, h.1.symm⟩
  | cons c r ih =>
    intro l ls h
    by_cases hc : c = '\n'
    · subst hc
      simp [splitNl] at h
      exact Or.inr ⟨r, by simp [h.1], h.2⟩
    · rw [splitNl, if_neg hc] at h
      rcases hr : splitNl r with _ | ⟨hd, tl⟩
      · exact absurd hr (splitNl_ne_nil r)
      · rw [hr] at h
        have h1 : l = c :: hd := ((List.cons.injEq ..).mp h).1.symm
        have h2 : ls = tl := ((List.cons.injEq ..).mp h).2.symm
        subst h1; subst h2
        rcases ih hd ls hr with ⟨hls, hrhd⟩ | ⟨rest, hr1, hr2⟩
        · exact Or.inl ⟨hls, by rw [hrhd]⟩
        · exact Or.inr ⟨rest, by rw [hr1]; rfl, hr2⟩

theorem lineTails_no_nl (s : List Char) (h : ¬ '\n' ∈ s) : lineTails s = [] := by
  induction s with
  | nil => rfl
  | cons c r ih =>
    rw [lineTails, if_neg (fun hc => h (by rw [← hc]; exact List.mem_cons_self c r))]
    exact ih (fun hm => h (List.mem_cons_of_mem c hm))

theorem lineTails_append_nl (l rest : List Char) (h : ¬ '\n' ∈ l) :
    lineTails (l ++ '\n' :: rest) = rest :: lineTails rest := by
  induction l with
  | nil => simp [lineTails]
  | cons c l ih =>
    show lineTails (c :: (l ++ '\n' :: rest)) = _
    rw [lineTails, if_neg (fun hc => h (by rw [← hc]; exact List.mem_cons_self c l))]
    exact ih (fun hm => h (List.mem_cons_of_mem c hm))

theorem searchML_of_some {α : Type} (f : List Char → Option α) (s : List Char) (a : α)
    (h : f s = some a) : searchML f s = some a := by
  unfold searchML
  rw [firstSome, h]

theorem searchML_single {α : Type} (f : List Char → Option α) (s : List Char)
    (h : ¬ '\n' ∈ s) : searchML f s = f s := by
  unfold searchML
  rw [lineTails_no_nl s h, firstSome]
  rcases f s with _ | a <;> rfl

theorem searchML_step {α : Type} (f : List Char → Option α) (l rest : List Char)
    (hnl : ¬ '\n' ∈ l) (hfail : f (l ++ '\n' :: rest) = none) :
    searchML f (l ++ '\n' :: rest) = searchML f rest := by
  unfold searchML
  rw [lineTails_append_nl l rest hnl, firstSome, hfail]

/-- Shape of a header block's line list: every line that starts with
`msgid` is exactly the header declaration `msgid ""`, and is not followed
by a quoted continuation line. -/
def hdrOk : List (List Char) → Bool
  | [] => true
  | l :: ls =>
    (! "msgid".toList.isPrefixOf l ||
      (decide (l = msgidEmptyLine) &&
        match ls with
        | [] => true
        | l2 :: _ => ! startsQuote l2)) &&
    hdrOk ls

theorem hdrOk_tail {l : List Char} {ls : List (List Char)}
    (h : hdrOk (l :: ls) = true) : hdrOk ls = true := by
  simp only [hdrOk, Bool.and_eq_true] at h
  exact h.2

theorem hdrOk_suffix : ∀ (d r : List (List Char)), hdrOk (d ++ r) = true → hdrOk r = true := by
  intro d
  induction d with
  | nil => intro r h; exact h
  | cons l d ih => intro r h; exact ih r (hdrOk_tail h)

theorem hdrOk_msgid_eq {l : List Char} {ls : List (List Char)}
    (h : hdrOk (l :: ls) = true) (hp : "msgid".toList.isPrefixOf l = true) :
    l = msgidEmptyLine := by
  simp only [hdrOk, Bool.and_eq_true, Bool.or_eq_true] at h
  rcases h.1 with h1 | h1
  · rw [Bool.not_eq_true'] at h1
    rw [h1] at hp
    exact absurd hp (by simp)
  · exact of_decide_eq_true h1.1

theorem hdrOk_msgid_next {l : List Char} {ls : List (List Char)}
    (h : hdrOk (l :: ls) = true) (hp : "msgid".toList.isPrefixOf l = true) :
    ∀ l2 tl, ls = l2 :: tl → startsQuote l2 = false := by
  intro l2 tl hls
  subst hls
  simp only [hdrOk, Bool.and_eq_true, Bool.or_eq_true] at h
  rcases h.1 with h1 | h1
  · rw [Bool.not_eq_true'] at h1
    rw [h1] at hp
    exact absurd hp (by simp)
  · have := h1.2
    rw [Bool.not_eq_true'] at this
    exact this

theorem splitNl_mem_isInfix : ∀ (s l : List Char), l ∈ splitNl s → l <:+: s := by
  intro s
  induction s with
  | nil =>
    intro l hl
    simp [splitNl] at hl
    simp [hl]
  | cons c r ih =>
    intro l hl
    by_cases hc : c = '\n'
    · subst hc
      simp [splitNl] at hl
      rcases hl with hl | hl
      · simp [hl]
      · exact (ih l hl).trans (List.infix_cons (List.infix_refl r))
    · rw [splitNl, if_neg hc] at hl
      rcases hr : splitNl r with _ | ⟨hd, tl⟩
      · exact absurd hr (splitNl_ne_nil r)
      · rw [hr] at hl
        rcases List.mem_cons.mp hl with hl | hl
        · subst hl
          have : hd <+: r := splitNl_head_prefix r hd tl hr
          exact (List.cons_prefix_cons.mpr ⟨rfl, this⟩).isInfix
        · have : l <:+: r :=
            ih l (by rw [hr]; exact List.mem_cons_of_mem hd hl)
          exact this.trans (List.infix_cons (List.infix_refl r))

theorem hasInfix_of_isInfix : ∀ (s pat : List Char), pat <:+: s → hasInfix pat s = true := by
  intro s
  induction s with
  | nil =>
    intro pat h
    have : pat = [] := List.eq_nil_of_infix_nil h
    simp [hasInfix, this]
  | cons c r ih =>
    intro pat h
    obtain ⟨u, v, huv⟩ := h
    cases u with
    | nil =>
      have hpre : pat <+: c :: r := ⟨v, by simpa using huv⟩
      rw [hasInfix, Bool.or_eq_true]
      exact Or.inl (List.isPrefixOf_iff_prefix.mpr hpre)
    | cons a u' =>
      have hr : pat <:+: r := ⟨u', v, by
        have := huv
        simp only [List.cons_append, List.cons.injEq] at this
        exact this.2⟩
      rw [hasInfix, Bool.or_eq_true]
      exact Or.inr (ih pat hr)

theorem hasLine_iff (pat : List Char) (ls : List (List Char)) :
    hasLine pat ls = true ↔ pat ∈ ls := by
  unfold hasLine
  rw [List.any_eq_true]
  constructor
  · rintro ⟨l, hl, hd⟩
    rw [decide_eq_true_eq] at hd
    exact hd ▸ hl
  · intro h
    exact ⟨pat, h, by simp⟩

theorem contAccum_decomp : ∀ (ls : List (List Char)) (v : List Char),
    ∃ d, ls = d ++ (contAccum v ls).2 ∧ ∀ l ∈ d, startsQuote l = true := by
  intro ls
  induction ls with
  | nil => intro v; exact ⟨[], by simp [contAccum], by simp⟩
  | cons l ls ih =>
    intro v
    by_cases h : startsQuote l = true
    · have hstep : contAccum v (l :: ls) = contAccum (v ++ (l.drop 1).dropLast) ls := by
        rw [contAccum, if_pos h]
      obtain ⟨d, hd1, hd2⟩ := ih (v ++ (l.drop 1).dropLast)
      refine ⟨l :: d, ?_, ?_⟩
      · rw [hstep, List.cons_append, ← hd1]
      · intro l' hl'
        rcases List.mem_cons.mp hl' with hl' | hl'
        · exact hl' ▸ h
        · exact hd2 l' hl'
    · have hstep : contAccum v (l :: ls) = (v, l :: ls) := by
        rw [contAccum, if_neg h]
      exact ⟨[], by simp [hstep], by simp⟩

theorem hasLine_quotes_false (d : List (List Char))
    (h : ∀ l ∈ d, startsQuote l = true) : hasLine msgidEmptyLine d = false := by
  unfold hasLine
  rw [List.any_eq_false]
  intro l hl
  rw [decide_eq_true_eq]
  intro he
  subst he
  have := h _ hl
  exact absurd this (by decide)

theorem kw_prefix_append_cases : ∀ (kw l rest : List Char) (c : Char),
    kw <+: (l ++ c :: rest) → kw <+: l ∨ c ∈ kw := by
  intro kw l
  induction l generalizing kw with
  | nil =>
    intro rest c h
    cases kw with
    | nil => exact Or.inl List.nil_prefix
    | cons k kr =>
      simp only [List.nil_append, List.cons_prefix_cons] at h
      exact Or.inr (h.1 ▸ List.mem_cons_self k kr)
  | cons a l ih =>
    intro rest c h
    cases kw with
    | nil => exact Or.inl List.nil_prefix
    | cons k kr =>
      simp only [List.cons_append, List.cons_prefix_cons] at h
      rcases ih kr rest c h.2 with h' | h'
      · exact Or.inl (List.cons_prefix_cons.mpr ⟨h.1, h'⟩)
      · exact Or.inr (List.mem_cons_of_mem k h')

theorem matchDeclAt_none_of_not_pre (kw s : List Char)
    (h : kw.isPrefixOf s = false) : matchDeclAt kw s = none := by
  unfold matchDeclAt
  rw [if_neg (by simp [h])]

theorem parseLines_msgid_step (st : PState) (ls' : List (List Char))
    (hnext : ∀ l2 tl, ls' = l2 :: tl → startsQuote l2 = false) :
    parseLines st (msgidEmptyLine :: ls') = parseLines { st with msgid := some [] } ls' := by
  cases ls' with
  | nil =>
    simp [parseLines, firstQuoteIdx, contAccum, unescape, unN, unQ, unB,
      List.findIdx?, msgidEmptyLine, List.isPrefixOf]
  | cons l2 tl =>
    have hq : startsQuote l2 = false := hnext l2 tl rfl
    simp [parseLines, firstQuoteIdx, contAccum, hq, unescape, unN, unQ, unB,
      List.findIdx?, msgidEmptyLine, List.isPrefixOf]

theorem parseLines_msgstr_step (st : PState) (l : List Char) (ls' : List (List Char))
    (h3 : "msgstr \"".toList.isPrefixOf l = true) :
    parseLines st (l :: ls') =
      parseLines
        { st with msgstr := some (unescape (contAccum ((l.drop 8).dropLast) ls').1) }
        (contAccum ((l.drop 8).dropLast) ls').2 := by
  obtain ⟨t, ht⟩ := List.isPrefixOf_iff_prefix.mp h3
  subst ht
  simp [parseLines, firstQuoteIdx, List.findIdx?, List.isPrefixOf]

theorem parseLines_idx_step (st : PState) (l : List Char) (ls' : List (List Char))
    (idx : Nat) (v0 : List Char)
    (h1 : "msgid ".toList.isPrefixOf l = false)
    (h2 : "msgid_plural ".toList.isPrefixOf l = false)
    (h3 : "msgstr \"".toList.isPrefixOf l = false)
    (hm : matchMsgstrIdx l = some (idx, v0)) :
    parseLines st (l :: ls') =
      parseLines
        { st with msgstr_plural :=
            updateIdx st.msgstr_plural idx (unescape (contAccum v0 ls').1) }
        (contAccum v0 ls').2 := by
  have h1n : (['m', 's', 'g', 'i', 'd', ' '] : List Char).isPrefixOf l = false := h1
  have h1' : ¬ ((['m', 's', 'g', 'i', 'd', ' '] : List Char) <+: l) := by
    intro hp
    rw [← List.isPrefixOf_iff_prefix, h1n] at hp
    exact Bool.noConfusion hp
  have h2n : (['m', 's', 'g', 'i', 'd', '_', 'p', 'l', 'u', 'r', 'a', 'l', ' '] : List Char).isPrefixOf l = false := h2
  have h2' : ¬ ((['m', 's', 'g', 'i', 'd', '_', 'p', 'l', 'u', 'r', 'a', 'l', ' '] : List Char) <+: l) := by
    intro hp
    rw [← List.isPrefixOf_iff_prefix, h2n] at hp
    exact Bool.noConfusion hp
  have h3n : (['m', 's', 'g', 's', 't', 'r', ' ', '\"'] : List Char).isPrefixOf l = false := h3
  have h3' : ¬ ((['m', 's', 'g', 's', 't', 'r', ' ', '\"'] : List Char) <+: l) := by
    intro hp
    rw [← List.isPrefixOf_iff_prefix, h3n] at hp
    exact Bool.noConfusion hp
  simp [parseLines, h1', h2', h3', hm]

theorem parseLines_other_step (st : PState) (l : List Char) (ls' : List (List Char))
    (h1 : "msgid ".toList.isPrefixOf l = false)
    (h2 : "msgid_plural ".toList.isPrefixOf l = false)
    (h3 : "msgstr \"".toList.isPrefixOf l = false)
    (hm : matchMsgstrIdx l = none) :
    parseLines st (l :: ls') = parseLines st ls' := by
  have h1n : (['m', 's', 'g', 'i', 'd', ' '] : List Char).isPrefixOf l = false := h1
  have h1' : ¬ ((['m', 's', 'g', 'i', 'd', ' '] : List Char) <+: l) := by
    intro hp
    rw [← List.isPrefixOf_iff_prefix, h1n] at hp
    exact Bool.noConfusion hp
  have h2n : (['m', 's', 'g', 'i', 'd', '_', 'p', 'l', 'u', 'r', 'a', 'l', ' '] : List Char).isPrefixOf l = false := h2
  have h2' : ¬ ((['m', 's', 'g', 'i', 'd', '_', 'p', 'l', 'u', 'r', 'a', 'l', ' '] : List Char) <+: l) := by
    intro hp
    rw [← List.isPrefixOf_iff_prefix, h2n] at hp
    exact Bool.noConfusion hp
  have h3n : (['m', 's', 'g', 's', 't', 'r', ' ', '\"'] : List Char).isPrefixOf l = false := h3
  have h3' : ¬ ((['m', 's', 'g', 's', 't', 'r', ' ', '\"'] : List Char) <+: l) := by
    intro hp
    rw [← List.isPrefixOf_iff_prefix, h3n] at hp
    exact Bool.noConfusion hp
  simp [parseLines, h1', h2', h3', hm]

theorem contAccum_facts (ls' : List (List Char)) (v : List Char)
    (hok' : hdrOk ls' = true) :
    hdrOk (contAccum v ls').2 = true ∧
    hasLine msgidEmptyLine (contAccum v ls').2 = hasLine msgidEmptyLine ls' := by
  obtain ⟨d, hd1, hd2⟩ := contAccum_decomp ls' v
  constructor
  · exact hdrOk_suffix d _ (hd1 ▸ hok')
  · conv_rhs => rw [hd1]
    unfold hasLine
    rw [List.any_append]
    have hfq := hasLine_quotes_false d hd2
    unfold hasLine at hfq
    rw [hfq, Bool.false_or]

theorem parseLines_hdr : ∀ (n : Nat) (ls : List (List Char)), ls.length ≤ n →
    hdrOk ls = true → ∀ st : PState,
    ∃ st', parseLines st ls = some st' ∧
      st'.msgid = (if hasLine msgidEmptyLine ls = true then some [] else st.msgid) := by
  intro n
  induction n with
  | zero =>
    intro ls hlen hok st
    have hnil : ls = [] := List.length_eq_zero.mp (Nat.le_zero.mp hlen)
    subst hnil
    exact ⟨st, by simp [parseLines], by simp [hasLine]⟩
  | succ n ih =>
    intro ls hlen hok st
    cases ls with
    | nil => exact ⟨st, by simp [parseLines], by simp [hasLine]⟩
    | cons l ls' =>
      have hlen' : ls'.length ≤ n := by simpa using hlen
      have hok' : hdrOk ls' = true := hdrOk_tail hok
      by_cases hA : "msgid ".toList.isPrefixOf l = true
      · have hp5 : "msgid".toList.isPrefixOf l = true := by
          have h1 : "msgid".toList <+: "msgid ".toList := by decide
          exact List.isPrefixOf_iff_prefix.mpr
            (h1.trans (List.isPrefixOf_iff_prefix.mp hA))
        have hle : l = msgidEmptyLine := hdrOk_msgid_eq hok hp5
        subst hle
        rw [parseLines_msgid_step st ls' (hdrOk_msgid_next hok hp5)]
        obtain ⟨st', h1, h2⟩ := ih ls' hlen' hok' { st with msgid := some [] }
        refine ⟨st', h1, ?_⟩
        rw [h2]
        simp [hasLine]
      · have hlne : l ≠ msgidEmptyLine := by
          intro he; subst he; exact hA (by decide)
        have hcons : hasLine msgidEmptyLine (l :: ls') = hasLine msgidEmptyLine ls' := by
          simp [hasLine, hlne]
        by_cases hB : "msgid_plural ".toList.isPrefixOf l = true
        · exfalso
          have hp5 : "msgid".toList.isPrefixOf l = true := by
            have h1 : "msgid".toList <+: "msgid_plural ".toList := by decide
            exact List.isPrefixOf_iff_prefix.mpr
              (h1.trans (List.isPrefixOf_iff_prefix.mp hB))
          exact hlne (hdrOk_msgid_eq hok hp5)
        · by_cases hC : "msgstr \"".toList.isPrefixOf l = true
          · rw [parseLines_msgstr_step st l ls' hC]
            obtain ⟨hokr, hhr⟩ := contAccum_facts ls' ((l.drop 8).dropLast) hok'
            have hlenr : (contAccum ((l.drop 8).dropLast) ls').2.length ≤ n :=
              le_trans (contAccum_length ls' _) hlen'
            obtain ⟨st', hst1, hst2⟩ := ih _ hlenr hokr _
            refine ⟨st', hst1, ?_⟩
            rw [hst2, hcons, hhr]
          · rcases hm : matchMsgstrIdx l with _ | iv
            · rw [parseLines_other_step st l ls' (Bool.eq_false_iff.mpr hA)
                (Bool.eq_false_iff.mpr hB) (Bool.eq_false_iff.mpr hC) hm]
              obtain ⟨st', hst1, hst2⟩ := ih ls' hlen' hok' st
              exact ⟨st', hst1, by rw [hst2, hcons]⟩
            · obtain ⟨idx, v0⟩ := iv
              rw [parseLines_idx_step st l ls' idx v0 (Bool.eq_false_iff.mpr hA)
                (Bool.eq_false_iff.mpr hB) (Bool.eq_false_iff.mpr hC) hm]
              obtain ⟨hokr, hhr⟩ := contAccum_facts ls' v0 hok'
              have hlenr : (contAccum v0 ls').2.length ≤ n :=
                le_trans (contAccum_length ls' _) hlen'
              obtain ⟨st', hst1, hst2⟩ := ih _ hlenr hokr _
              refine ⟨st', hst1, ?_⟩
              rw [hst2, hcons, hhr]

theorem matchDeclAt_msgidEmpty_append (rest : List Char) :
    matchDeclAt "msgid".toList (msgidEmptyLine ++ '\n' :: rest) = some [] := by
  have he : msgidEmptyLine ++ '\n' :: rest =
      'm' :: 's' :: 'g' :: 'i' :: 'd' :: ' ' :: '"' :: '"' :: '\n' :: rest := rfl
  rw [he]
  simp [matchDeclAt, parseGroup, isPySpace, List.isPrefixOf]

theorem searchMsgid_hdr : ∀ (n : Nat) (b : List Char), b.length ≤ n →
    hdrOk (splitNl b) = true → msgidEmptyLine ∈ splitNl b →
    searchML (matchDeclAt "msgid".toList) b = some [] := by
  intro n
  induction n with
  | zero =>
    intro b hlen hok hmem
    have hb : b = [] := List.length_eq_zero.mp (Nat.le_zero.mp hlen)
    subst hb
    simp [splitNl] at hmem
    exact absurd hmem.symm (by decide)
  | succ n ih =>
    intro b hlen hok hmem
    rcases hsp : splitNl b with _ | ⟨l, ls⟩
    · exact absurd hsp (splitNl_ne_nil b)
    rw [hsp] at hok hmem
    rcases splitNl_decompose b l ls hsp with ⟨hls, hbl⟩ | ⟨rest, hbl, hrest⟩
    · subst hls
      rcases List.mem_cons.mp hmem with he | he
      · subst hbl
        rw [← he]
        exact searchML_of_some _ _ [] (by decide)
      · exact absurd he (List.not_mem_nil _)
    · by_cases hl : l = msgidEmptyLine
      · subst hl
        rw [hbl]
        exact searchML_of_some _ _ [] (matchDeclAt_msgidEmpty_append rest)
      · have hpre : "msgid".toList.isPrefixOf l = false := by
          by_cases hp : "msgid".toList.isPrefixOf l = true
          · exact absurd (hdrOk_msgid_eq hok hp) hl
          · exact Bool.eq_false_iff.mpr hp
        have happ : "msgid".toList.isPrefixOf (l ++ '\n' :: rest) = false := by
          by_cases hp : "msgid".toList.isPrefixOf (l ++ '\n' :: rest) = true
          · exfalso
            rcases kw_prefix_append_cases "msgid".toList l rest '\n'
                (List.isPrefixOf_iff_prefix.mp hp) with hc | hc
            · rw [List.isPrefixOf_iff_prefix.mpr hc] at hpre
              exact Bool.noConfusion hpre
            · exact absurd hc (by decide)
          · exact Bool.eq_false_iff.mpr hp
        have hnl : ¬ '\n' ∈ l := splitNl_no_nl b l (by rw [hsp]; exact List.mem_cons_self l ls)
        have hmem' : msgidEmptyLine ∈ ls := by
          rcases List.mem_cons.mp hmem with he | he
          · exact absurd he.symm hl
          · exact he
        rw [hbl, searchML_step _ l rest hnl
          (matchDeclAt_none_of_not_pre _ _ happ)]
        have hlenr : rest.length ≤ n := by
          rw [hbl] at hlen
          simp [List.length_append] at hlen
          omega
        exact ih rest hlenr (by rw [hrest]; exact hdrOk_tail hok)
          (by rw [hrest]; exact hmem')

/-- C9: a header block (one whose primary key declaration is exactly
`msgid ""`, with no quoted continuation after it) is ignored by every
codec consumer: the per-block parse step of both scripts contributes no
table entry, and `_fill_block` returns the block byte-unchanged with
filled count 0 and total count 0. -/
theorem C9_header_block_ignored (b : List Char) (ls : List (List Char))
    (tbl : List (KeyT × List Char))
    (hsplit : splitNl b = ls)
    (hstrip : pySplitlines (pyStrip b) = ls)
    (hok : hdrOk ls = true)
    (hmem : msgidEmptyLine ∈ ls) :
    parseBlockM (pySplitlines (pyStrip b)) = some none ∧
    parseBlockV (pySplitlines (pyStrip b)) = some none ∧
    fill_block b tbl = some (b, 0, 0) := by
  subst hsplit
  have hparse : parseBlockM (pySplitlines (pyStrip b)) = some none := by
    rw [hstrip]
    obtain ⟨st', h1, h2⟩ :=
      parseLines_hdr (splitNl b).length (splitNl b) le_rfl hok initPState
    rw [if_pos ((hasLine_iff _ _).mpr hmem)] at h2
    simp [parseBlockM, h1, h2]
  refine ⟨hparse, hparse, ?_⟩
  have hinf : msgidEmptyLine <:+: b := splitNl_mem_isInfix b _ hmem
  have hblank : isBlankStr b = false := by
    have hm : 'm' ∈ b := hinf.sublist.subset (by decide : 'm' ∈ msgidEmptyLine)
    unfold isBlankStr
    rw [List.all_eq_false]
    exact ⟨'m', hm, by decide⟩
  have hhi : hasInfix "msgid".toList b = true :=
    hasInfix_of_isInfix b _
      ((List.IsPrefix.isInfix (by decide : "msgid".toList <+: msgidEmptyLine)).trans hinf)
  have hsearch : searchML (matchDeclAt ['m', 's', 'g', 'i', 'd']) b = some [] :=
    searchMsgid_hdr b.length b le_rfl hok hmem
  have hhi2 : hasInfix ['m', 's', 'g', 'i', 'd'] b = true := hhi
  unfold fill_block
  rw [if_neg (by simp [hblank, hhi2])]
  simp [hsearch, unescape, unN, unQ, unB]

/-- Witness for C9: the standard Spanish header block is skipped by the
parsers and passed through unchanged by the fill operation. -/
theorem C9_header_block_ignored_witness :
    parseBlockM (pySplitlines (pyStrip "msgid \"\"\nmsgstr \"\"\n\"Language: es\\n\"".toList)) =
      some none ∧
    parseBlockV (pySplitlines (pyStrip "msgid \"\"\nmsgstr \"\"\n\"Language: es\\n\"".toList)) =
      some none ∧
    fill_block "msgid \"\"\nmsgstr \"\"\n\"Language: es\\n\"".toList [] =
      some ("msgid \"\"\nmsgstr \"\"\n\"Language: es\\n\"".toList, 0, 0) :=
  C9_header_block_ignored _
    ["msgid \"\"".toList, "msgstr \"\"".toList, "\"Language: es\\n\"".toList] []
    (by decide) (by decide) (by decide) (by decide)

/-! ## Call Rewriter (`scripts/gettext_split.py`, `transform_content`)

Each `re.sub` pass is a left-to-right scanner over the subject string.
The lookbehind `(?<![d\w])` (equivalent to `(?<!\w)` since `d` is a word
character) is tracked by a boolean carrying whether the previous subject
character is a word character (false at the start of the string).
`re.sub` resumes scanning after the end of each match, so after a
replacement the carried flag is the word-ness of the last matched subject
character (`(`, `,` or a space — all non-word). -/

/-- The literal `gettext(`. -/
def gpat : List Char := "gettext(".toList

/-- The literal `ngettext(`. -/
def npat : List Char := "ngettext(".toList

/-- Matcher for `Gettext\.gettext\(\s*StoryarnWeb\.Gettext,\s*` at the
current position (the `\b` is checked by the caller; `\s` matches a
newline, which is all `re.DOTALL` could have added). Both `\s*` are
deterministic since whitespace never matches the following literal.
Returns the rest of the subject after the match. -/
def matchC (s : List Char) : Option (List Char) :=
  if "Gettext.gettext(".toList.isPrefixOf s then
    if "StoryarnWeb.Gettext,".toList.isPrefixOf ((s.drop 16).dropWhile isPySpace) then
      some ((((s.drop 16).dropWhile isPySpace).drop 20).dropWhile isPySpace)
    else none
  else none

/-- Matcher for `Gettext\.ngettext\(\s*StoryarnWeb\.Gettext,\s*`. -/
def matchD (s : List Char) : Option (List Char) :=
  if "Gettext.ngettext(".toList.isPrefixOf s then
    if "StoryarnWeb.Gettext,".toList.isPrefixOf ((s.drop 17).dropWhile isPySpace) then
      some ((((s.drop 17).dropWhile isPySpace).drop 20).dropWhile isPySpace)
    else none
  else none

/-- Replacement `dgettext("{domain}", `. -/
def replA (d : List Char) : List Char := "dgettext(\"".toList ++ d ++ "\", ".toList

/-- Replacement `dngettext("{domain}", `. -/
def replB (d : List Char) : List Char := "dngettext(\"".toList ++ d ++ "\", ".toList

/-- Replacement `Gettext.dgettext(StoryarnWeb.Gettext, "{domain}", `. -/
def replC (d : List Char) : List Char :=
  "Gettext.dgettext(StoryarnWeb.Gettext, \"".toList ++ d ++ "\", ".toList

/-- Replacement `Gettext.dngettext(StoryarnWeb.Gettext, "{domain}", `. -/
def replD (d : List Char) : List Char :=
  "Gettext.dngettext(StoryarnWeb.Gettext, \"".toList ++ d ++ "\", ".toList

theorem matchC_length {s r : List Char} (h : matchC s = some r) : r.length < s.length := by
  unfold matchC at h
  by_cases h1 : "Gettext.gettext(".toList.isPrefixOf s = true
  · rw [if_pos h1] at h
    by_cases h2 : "StoryarnWeb.Gettext,".toList.isPrefixOf
        ((s.drop 16).dropWhile isPySpace) = true
    · rw [if_pos h2] at h
      have hr := (Option.some.injEq .. ▸ h :)
      have hlen : 16 ≤ s.length := by
        have := (List.isPrefixOf_iff_prefix.mp h1).length_le
        simpa using this
      calc r.length
          = ((((s.drop 16).dropWhile isPySpace).drop 20).dropWhile isPySpace).length := by
            rw [← hr]
        _ ≤ (((s.drop 16).dropWhile isPySpace).drop 20).length :=
            (List.dropWhile_sublist _).length_le
        _ ≤ ((s.drop 16).dropWhile isPySpace).length := by
            rw [List.length_drop]; omega
        _ ≤ (s.drop 16).length := (List.dropWhile_sublist _).length_le
        _ < s.length := by rw [List.length_drop]; omega
    · rw [if_neg h2] at h; exact Option.noConfusion h
  · rw [if_neg h1] at h; exact Option.noConfusion h

theorem matchD_length {s r : List Char} (h : matchD s = some r) : r.length < s.length := by
  unfold matchD at h
  by_cases h1 : "Gettext.ngettext(".toList.isPrefixOf s = true
  · rw [if_pos h1] at h
    by_cases h2 : "StoryarnWeb.Gettext,".toList.isPrefixOf
        ((s.drop 17).dropWhile isPySpace) = true
    · rw [if_pos h2] at h
      have hr := (Option.some.injEq .. ▸ h :)
      have hlen : 17 ≤ s.length := by
        have := (List.isPrefixOf_iff_prefix.mp h1).length_le
        simpa using this
      calc r.length
          = ((((s.drop 17).dropWhile isPySpace).drop 20).dropWhile isPySpace).length := by
            rw [← hr]
        _ ≤ (((s.drop 17).dropWhile isPySpace).drop 20).length :=
            (List.dropWhile_sublist _).length_le
        _ ≤ ((s.drop 17).dropWhile isPySpace).length := by
            rw [List.length_drop]; omega
        _ ≤ (s.drop 17).length := (List.dropWhile_sublist _).length_le
        _ < s.length := by rw [List.length_drop]; omega
    · rw [if_neg h2] at h; exact Option.noConfusion h
  · rw [if_neg h1] at h; exact Option.noConfusion h

/-- The `RE_GETTEXT.sub` pass: replace `gettext(` wherever the previous
subject character is not a word character. -/
def subA (d : List Char) : Bool → List Char → List Char
  | _, [] => []
  | prevW, c :: cs =>
    if !prevW && gpat.isPrefixOf (c :: cs) then
      replA d ++ subA d false ((c :: cs).drop 8)
    else
      c :: subA d (isWordChar c) cs
termination_by _ s => s.length
decreasing_by
  · simp [List.length_drop]; omega
  · simp

/-- The `RE_NGETTEXT.sub` pass. -/
def subB (d : List Char) : Bool → List Char → List Char
  | _, [] => []
  | prevW, c :: cs =>
    if !prevW && npat.isPrefixOf (c :: cs) then
      replB d ++ subB d false ((c :: cs).drop 9)
    else
      c :: subB d (isWordChar c) cs
termination_by _ s => s.length
decreasing_by
  · simp [List.length_drop]; omega
  · simp

/-- The `RE_MOD_GETTEXT.sub` pass (the `\b` holds exactly when the
previous character is not a word character, since the next character `G`
is one). -/
def subC (d : List Char) : Bool → List Char → List Char
  | _, [] => []
  | prevW, c :: cs =>
    if prevW then c :: subC d (isWordChar c) cs
    else
      match hm : matchC (c :: cs) with
      | some rest => replC d ++ subC d false rest
      | none => c :: subC d (isWordChar c) cs
termination_by _ s => s.length
decreasing_by
  all_goals first
  | (have hlt := matchC_length hm; simpa using hlt)
  | simp

/-- The `RE_MOD_NGETTEXT.sub` pass. -/
def subD (d : List Char) : Bool → List Char → List Char
  | _, [] => []
  | prevW, c :: cs =>
    if prevW then c :: subD d (isWordChar c) cs
    else
      match hm : matchD (c :: cs) with
      | some rest => replD d ++ subD d false rest
      | none => c :: subD d (isWordChar c) cs
termination_by _ s => s.length
decreasing_by
  all_goals first
  | (have hlt := matchD_length hm; simpa using hlt)
  | simp

/-- `transform_content(content, domain)`: apply form C, then D, then A,
then B, each as a full `re.sub` pass over the previous result. -/
def transform_content (content d : List Char) : List Char :=
  subB d false (subA d false (subD d false (subC d false content)))

/-- Is every character of the domain label a word character (true of all
labels in `DOMAIN_RULES`)? -/
def allWord (d : List Char) : Bool := d.all isWordChar

/-- No occurrence of `pat` at a position whose previous subject character
is a non-word character (`b` carries the word-ness of the previous
character, false at the start): exactly the positions the bare-form
patterns could match at. -/
def pclean (pat : List Char) (b : Bool) : List Char → Bool
  | [] => true
  | c :: cs => (b || ! pat.isPrefixOf (c :: cs)) && pclean pat (isWordChar c) cs

theorem word_not_quote {c : Char} (h : isWordChar c = true) : c ≠ '"' := by
  intro he
  subst he
  exact absurd h (by decide)

theorem word_not_lparen {c : Char} (h : isWordChar c = true) : c ≠ '(' := by
  intro he
  subst he
  exact absurd h (by decide)

/-- A pattern of word characters followed by `(` is never a prefix of a
word-character string followed by a quote. -/
theorem pat_words_quote_not_pre : ∀ (dd pw ys : List Char),
    allWord pw = true → allWord dd = true →
    ¬ ((pw ++ ['(']) <+: (dd ++ '"' :: ys)) := by
  intro dd
  induction dd with
  | nil =>
    intro pw ys hpw _ h
    cases pw with
    | nil => simp at h
    | cons p0 pw' =>
      rw [List.cons_append, List.nil_append, List.cons_prefix_cons] at h
      have hw : isWordChar p0 = true := by
        have := (List.all_eq_true.mp hpw) p0 (List.mem_cons_self p0 pw')
        simpa using this
      exact word_not_quote hw h.1
  | cons a dd' ih =>
    intro pw ys hpw hdd h
    have haw : isWordChar a = true := by
      have := (List.all_eq_true.mp hdd) a (List.mem_cons_self a dd')
      simpa using this
    have hdd' : allWord dd' = true := by
      rw [allWord, List.all_eq_true]
      intro x hx
      exact (List.all_eq_true.mp hdd) x (List.mem_cons_of_mem a hx)
    cases pw with
    | nil =>
      rw [List.nil_append] at h
      rw [List.cons_append, List.cons_prefix_cons] at h
      exact word_not_lparen haw h.1.symm
    | cons p0 pw' =>
      rw [List.cons_append, List.cons_append, List.cons_prefix_cons] at h
      have hpw' : allWord pw' = true := by
        rw [allWord, List.all_eq_true]
        intro x hx
        exact (List.all_eq_true.mp hpw) x (List.mem_cons_of_mem p0 hx)
      exact ih pw' ys hpw' hdd' h.2

theorem pat_words_quote_isPrefixOf (dd pw ys : List Char)
    (hpw : allWord pw = true) (hdd : allWord dd = true) :
    (pw ++ ['(']).isPrefixOf (dd ++ '"' :: ys) = false := by
  by_cases h : (pw ++ ['(']).isPrefixOf (dd ++ '"' :: ys) = true
  · exact absurd (List.isPrefixOf_iff_prefix.mp h)
      (pat_words_quote_not_pre dd pw ys hpw hdd)
  · exact Bool.eq_false_iff.mpr h

theorem pclean_words (pw : List Char) (hpw : allWord pw = true) :
    ∀ (dd : List Char), allWord dd = true → ∀ (b : Bool) (ys : List Char),
    pclean (pw ++ ['(']) b (dd ++ '"' :: ys) = pclean (pw ++ ['(']) false ys := by
  intro dd
  induction dd with
  | nil =>
    intro _ b ys
    rw [List.nil_append, pclean]
    have hq : (pw ++ ['(']).isPrefixOf ('"' :: ys) = false := by
      have := pat_words_quote_isPrefixOf [] pw ys hpw (by decide)
      simpa using this
    rw [hq]
    simp [isWordChar]
  | cons a dd' ih =>
    intro hdd b ys
    have haw : isWordChar a = true := by
      have := (List.all_eq_true.mp hdd) a (List.mem_cons_self a dd')
      simpa using this
    have hdd' : allWord dd' = true := by
      rw [allWord, List.all_eq_true]
      intro x hx
      exact (List.all_eq_true.mp hdd) x (List.mem_cons_of_mem a hx)
    rw [List.cons_append, pclean]
    have hpre : (pw ++ ['(']).isPrefixOf (a :: (dd' ++ '"' :: ys)) = false := by
      have := pat_words_quote_isPrefixOf (a :: dd') pw ys hpw hdd
      rwa [List.cons_append] at this
    rw [hpre, haw, ih hdd' true ys]
    simp

theorem pclean_gpat_words (dd ys : List Char) (b : Bool) (hdd : allWord dd = true) :
    pclean gpat b (dd ++ '"' :: ys) = pclean gpat false ys := by
  have h : gpat = "gettext".toList ++ ['('] := rfl
  rw [h]
  exact pclean_words "gettext".toList (by decide) dd hdd b ys

theorem pclean_npat_words (dd ys : List Char) (b : Bool) (hdd : allWord dd = true) :
    pclean npat b (dd ++ '"' :: ys) = pclean npat false ys := by
  have h : npat = "ngettext".toList ++ ['('] := rfl
  rw [h]
  exact pclean_words "ngettext".toList (by decide) dd hdd b ys

theorem prefix_subA (dd : List Char) : ∀ (n : Nat) (s : List Char), s.length ≤ n →
    ∀ (w : Bool) (pat : List Char), ¬ 'd' ∈ pat →
    pat <+: subA dd w s → pat <+: s := by
  intro n
  induction n with
  | zero =>
    intro s hlen w pat _ h
    have hs : s = [] := List.length_eq_zero.mp (Nat.le_zero.mp hlen)
    subst hs
    rw [show subA dd w [] = [] from by simp [subA]] at h
    rw [List.prefix_nil] at h
    subst h
    exact List.nil_prefix
  | succ n ih =>
    intro s hlen w pat hd h
    cases s with
    | nil =>
      rw [show subA dd w [] = [] from by simp [subA]] at h
      rw [List.prefix_nil] at h
      subst h
      exact List.nil_prefix
    | cons c cs =>
      by_cases hc : (!w && gpat.isPrefixOf (c :: cs)) = true
      · have he : subA dd w (c :: cs) = replA dd ++ subA dd false ((c :: cs).drop 8) := by
          simp only [subA]
          rw [if_pos hc]
        rw [he] at h
        cases pat with
        | nil => exact List.nil_prefix
        | cons p pr =>
          exfalso
          have hsh : replA dd ++ subA dd false ((c :: cs).drop 8) =
              'd' :: ("gettext(\"".toList ++ dd ++ "\", ".toList ++
                subA dd false ((c :: cs).drop 8)) := by
            simp [replA]
          rw [hsh, List.cons_prefix_cons] at h
          exact hd (h.1 ▸ List.mem_cons_self p pr)
      · have he : subA dd w (c :: cs) = c :: subA dd (isWordChar c) cs := by
          simp only [subA]
          rw [if_neg hc]
        rw [he] at h
        cases pat with
        | nil => exact List.nil_prefix
        | cons p pr =>
          rw [List.cons_prefix_cons] at h
          have hpr : pr <+: cs :=
            ih cs (by simpa using hlen) (isWordChar c) pr
              (fun hm => hd (List.mem_cons_of_mem p hm)) h.2
          exact List.cons_prefix_cons.mpr ⟨h.1, hpr⟩

theorem prefix_subB (dd : List Char) : ∀ (n : Nat) (s : List Char), s.length ≤ n →
    ∀ (w : Bool) (pat : List Char), ¬ 'd' ∈ pat →
    pat <+: subB dd w s → pat <+: s := by
  intro n
  induction n with
  | zero =>
    intro s hlen w pat _ h
    have hs : s = [] := List.length_eq_zero.mp (Nat.le_zero.mp hlen)
    subst hs
    rw [show subB dd w [] = [] from by simp [subB]] at h
    rw [List.prefix_nil] at h
    subst h
    exact List.nil_prefix
  | succ n ih =>
    intro s hlen w pat hd h
    cases s with
    | nil =>
      rw [show subB dd w [] = [] from by simp [subB]] at h
      rw [List.prefix_nil] at h
      subst h
      exact List.nil_prefix
    | cons c cs =>
      by_cases hc : (!w && npat.isPrefixOf (c :: cs)) = true
      · have he : subB dd w (c :: cs) = replB dd ++ subB dd false ((c :: cs).drop 9) := by
          simp only [subB]
          rw [if_pos hc]
        rw [he] at h
        cases pat with
        | nil => exact List.nil_prefix
        | cons p pr =>
          exfalso
          have hsh : replB dd ++ subB dd false ((c :: cs).drop 9) =
              'd' :: ("ngettext(\"".toList ++ dd ++ "\", ".toList ++
                subB dd false ((c :: cs).drop 9)) := by
            simp [replB]
          rw [hsh, List.cons_prefix_cons] at h
          exact hd (h.1 ▸ List.mem_cons_self p pr)
      · have he : subB dd w (c :: cs) = c :: subB dd (isWordChar c) cs := by
          simp only [subB]
          rw [if_neg hc]
        rw [he] at h
        cases pat with
        | nil => exact List.nil_prefix
        | cons p pr =>
          rw [List.cons_prefix_cons] at h
          have hpr : pr <+: cs :=
            ih cs (by simpa using hlen) (isWordChar c) pr
              (fun hm => hd (List.mem_cons_of_mem p hm)) h.2
          exact List.cons_prefix_cons.mpr ⟨h.1, hpr⟩

/-- Every occurrence of `gettext(` in the output of the `RE_GETTEXT` pass
sits after a word character: the pass leaves no matchable site behind. -/
theorem pclean_gpat_subA (dd : List Char) (hdd : allWord dd = true) :
    ∀ (n : Nat) (s : List Char), s.length ≤ n → ∀ (b : Bool),
    pclean gpat b (subA dd b s) = true := by
  intro n
  induction n with
  | zero =>
    intro s hlen b
    have hs : s = [] := List.length_eq_zero.mp (Nat.le_zero.mp hlen)
    subst hs
    simp [subA, pclean]
  | succ n ih =>
    intro s hlen b
    cases s with
    | nil => simp [subA, pclean]
    | cons c cs =>
      by_cases hc : (!b && gpat.isPrefixOf (c :: cs)) = true
      · have hb : b = false := by
          rcases Bool.and_eq_true .. |>.mp hc with ⟨h1, _⟩
          simpa using h1
        subst hb
        have he : subA dd false (c :: cs) = replA dd ++ subA dd false ((c :: cs).drop 8) := by
          simp only [subA]
          rw [if_pos hc]
        rw [he]
        have hshape : replA dd ++ subA dd false ((c :: cs).drop 8) =
            'd' :: 'g' :: 'e' :: 't' :: 't' :: 'e' :: 'x' :: 't' :: '(' :: '"' ::
              (dd ++ '"' :: ',' :: ' ' :: subA dd false ((c :: cs).drop 8)) := by
          simp [replA]
        rw [hshape]
        simp only [pclean]
        rw [pclean_gpat_words dd _ _ hdd]
        have hl : (List.drop 8 (c :: cs)).length ≤ n := by
          rw [List.length_drop]
          simp only [List.length_cons] at hlen ⊢
          omega
        have hout := ih _ hl false
        simp [pclean, gpat, List.isPrefixOf, isWordChar]
        exact hout
      · have he : subA dd b (c :: cs) = c :: subA dd (isWordChar c) cs := by
          simp only [subA]
          rw [if_neg hc]
        rw [he, pclean]
        have h2 : pclean gpat (isWordChar c) (subA dd (isWordChar c) cs) = true :=
          ih cs (by simpa using hlen) (isWordChar c)
        rw [h2]
        cases b with
        | true => simp
        | false =>
          have hpre : gpat.isPrefixOf (c :: cs) = false := by
            by_cases hp : gpat.isPrefixOf (c :: cs) = true
            · exact absurd (by simp [hp]) hc
            · exact Bool.eq_false_iff.mpr hp
          have hpre2 : gpat.isPrefixOf (c :: subA dd (isWordChar c) cs) = false := by
            by_cases hp : gpat.isPrefixOf (c :: subA dd (isWordChar c) cs) = true
            · exfalso
              have h3 := List.isPrefixOf_iff_prefix.mp hp
              have hg : gpat = 'g' :: "ettext(".toList := rfl
              rw [hg, List.cons_prefix_cons] at h3
              have h4 : "ettext(".toList <+: cs :=
                prefix_subA dd cs.length cs le_rfl (isWordChar c) _ (by decide) h3.2
              have h5 : gpat <+: c :: cs := by
                rw [hg]
                exact List.cons_prefix_cons.mpr ⟨h3.1, h4⟩
              rw [List.isPrefixOf_iff_prefix.mpr h5] at hpre
              exact Bool.noConfusion hpre
            · exact Bool.eq_false_iff.mpr hp
          simp [hpre2]

/-- Every occurrence of `ngettext(` in the output of the `RE_NGETTEXT`
pass sits after a word character. -/
theorem pclean_npat_subB (dd : List Char) (hdd : allWord dd = true) :
    ∀ (n : Nat) (s : List Char), s.length ≤ n → ∀ (b : Bool),
    pclean npat b (subB dd b s) = true := by
  intro n
  induction n with
  | zero =>
    intro s hlen b
    have hs : s = [] := List.length_eq_zero.mp (Nat.le_zero.mp hlen)
    subst hs
    simp [subB, pclean]
  | succ n ih =>
    intro s hlen b
    cases s with
    | nil => simp [subB, pclean]
    | cons c cs =>
      by_cases hc : (!b && npat.isPrefixOf (c :: cs)) = true
      · have hb : b = false := by
          rcases Bool.and_eq_true .. |>.mp hc with ⟨h1, _⟩
          simpa using h1
        subst hb
        have he : subB dd false (c :: cs) = replB dd ++ subB dd false ((c :: cs).drop 9) := by
          simp only [subB]
          rw [if_pos hc]
        rw [he]
        have hshape : replB dd ++ subB dd false ((c :: cs).drop 9) =
            'd' :: 'n' :: 'g' :: 'e' :: 't' :: 't' :: 'e' :: 'x' :: 't' :: '(' :: '"' ::
              (dd ++ '"' :: ',' :: ' ' :: subB dd false ((c :: cs).drop 9)) := by
          simp [replB]
        rw [hshape]
        simp only [pclean]
        rw [pclean_npat_words dd _ _ hdd]
        have hl : (List.drop 9 (c :: cs)).length ≤ n := by
          rw [List.length_drop]
          simp only [List.length_cons] at hlen ⊢
          omega
        have hout := ih _ hl false
        simp [pclean, npat, List.isPrefixOf, isWordChar]
        exact hout
      · have he : subB dd b (c :: cs) = c :: subB dd (isWordChar c) cs := by
          simp only [subB]
          rw [if_neg hc]
        rw [he, pclean]
        have h2 : pclean npat (isWordChar c) (subB dd (isWordChar c) cs) = true :=
          ih cs (by simpa using hlen) (isWordChar c)
        rw [h2]
        cases b with
        | true => simp
        | false =>
          have hpre : npat.isPrefixOf (c :: cs) = false := by
            by_cases hp : npat.isPrefixOf (c :: cs) = true
            · exact absurd (by simp [hp]) hc
            · exact Bool.eq_false_iff.mpr hp
          have hpre2 : npat.isPrefixOf (c :: subB dd (isWordChar c) cs) = false := by
            by_cases hp : npat.isPrefixOf (c :: subB dd (isWordChar c) cs) = true
            · exfalso
              have h3 := List.isPrefixOf_iff_prefix.mp hp
              have hg : npat = 'n' :: "gettext(".toList := rfl
              rw [hg, List.cons_prefix_cons] at h3
              have h4 : "gettext(".toList <+: cs :=
                prefix_subB dd cs.length cs le_rfl (isWordChar c) _ (by decide) h3.2
              have h5 : npat <+: c :: cs := by
                rw [hg]
                exact List.cons_prefix_cons.mpr ⟨h3.1, h4⟩
              rw [List.isPrefixOf_iff_prefix.mpr h5] at hpre
              exact Bool.noConfusion hpre
            · exact Bool.eq_false_iff.mpr hp
          simp [hpre2]

/-- The `RE_NGETTEXT` pass preserves the absence of matchable `gettext(`
sites: its replacement embeds `gettext(` only after the word characters
`dn`, and it never uncovers a new site. -/
theorem pclean_gpat_subB (dd : List Char) (hdd : allWord dd = true) :
    ∀ (n : Nat) (s : List Char), s.length ≤ n → ∀ (b : Bool),
    pclean gpat b s = true → pclean gpat b (subB dd b s) = true := by
  intro n
  induction n with
  | zero =>
    intro s hlen b _
    have hs : s = [] := List.length_eq_zero.mp (Nat.le_zero.mp hlen)
    subst hs
    simp [subB, pclean]
  | succ n ih =>
    intro s hlen b h
    cases s with
    | nil => simp [subB, pclean]
    | cons c cs =>
      by_cases hc : (!b && npat.isPrefixOf (c :: cs)) = true
      · have hb : b = false := by
          rcases Bool.and_eq_true .. |>.mp hc with ⟨h1, _⟩
          simpa using h1
        subst hb
        have hnp : npat.isPrefixOf (c :: cs) = true := by
          rcases Bool.and_eq_true .. |>.mp hc with ⟨_, h2⟩
          exact h2
        obtain ⟨t, ht⟩ := List.isPrefixOf_iff_prefix.mp hnp
        have he : subB dd false (c :: cs) = replB dd ++ subB dd false ((c :: cs).drop 9) := by
          simp only [subB]
          rw [if_pos hc]
        have hdrop : (c :: cs).drop 9 = t := by
          rw [← ht]
          simp [npat]
        have hd2 : pclean gpat false t = true := by
          have hh := h
          rw [← ht] at hh
          have hform : (npat ++ t) =
              'n' :: 'g' :: 'e' :: 't' :: 't' :: 'e' :: 'x' :: 't' :: '(' :: t := rfl
          rw [hform] at hh
          simpa [pclean, gpat, List.isPrefixOf, isWordChar] using hh
        rw [he, hdrop]
        have hshape : replB dd ++ subB dd false t =
            'd' :: 'n' :: 'g' :: 'e' :: 't' :: 't' :: 'e' :: 'x' :: 't' :: '(' :: '"' ::
              (dd ++ '"' :: ',' :: ' ' :: subB dd false t) := by
          simp [replB]
        rw [hshape]
        simp only [pclean]
        rw [pclean_gpat_words dd _ _ hdd]
        have hlt : t.length ≤ n := by
          have : (c :: cs).length = npat.length + t.length := by
            rw [← ht, List.length_append]
          simp only [List.length_cons] at hlen this
          have hnl : npat.length = 9 := by decide
          omega
        have hout := ih t hlt false hd2
        simp [pclean, gpat, List.isPrefixOf, isWordChar]
        exact hout
      · have he : subB dd b (c :: cs) = c :: subB dd (isWordChar c) cs := by
          simp only [subB]
          rw [if_neg hc]
        rw [he, pclean]
        rw [pclean] at h
        rcases Bool.and_eq_true .. |>.mp h with ⟨h1, h2⟩
        have h2' : pclean gpat (isWordChar c) (subB dd (isWordChar c) cs) = true :=
          ih cs (by simpa using hlen) (isWordChar c) h2
        rw [h2']
        cases b with
        | true => simp
        | false =>
          have hpre : gpat.isPrefixOf (c :: cs) = false := by
            rcases Bool.or_eq_true .. |>.mp h1 with hx | hx
            · exact Bool.noConfusion hx
            · rw [Bool.not_eq_true'] at hx
              exact hx
          have hpre2 : gpat.isPrefixOf (c :: subB dd (isWordChar c) cs) = false := by
            by_cases hp : gpat.isPrefixOf (c :: subB dd (isWordChar c) cs) = true
            · exfalso
              have h3 := List.isPrefixOf_iff_prefix.mp hp
              have hg : gpat = 'g' :: "ettext(".toList := rfl
              rw [hg, List.cons_prefix_cons] at h3
              have h4 : "ettext(".toList <+: cs :=
                prefix_subB dd cs.length cs le_rfl (isWordChar c) _ (by decide) h3.2
              have h5 : gpat <+: c :: cs := by
                rw [hg]
                exact List.cons_prefix_cons.mpr ⟨h3.1, h4⟩
              rw [List.isPrefixOf_iff_prefix.mpr h5] at hpre
              exact Bool.noConfusion hpre
            · exact Bool.eq_false_iff.mpr hp
          simp [hpre2]

theorem subC_step_word (dd : List Char) (c : Char) (cs : List Char) :
    subC dd true (c :: cs) = c :: subC dd (isWordChar c) cs := by
  simp only [subC]
  rw [if_pos trivial]

theorem subC_step_none (dd : List Char) (c : Char) (cs : List Char)
    (hm : matchC (c :: cs) = none) :
    subC dd false (c :: cs) = c :: subC dd (isWordChar c) cs := by
  simp only [subC]
  rw [if_neg (by decide)]
  split
  next rest heq => rw [hm] at heq; exact Option.noConfusion heq
  next heq => rfl

theorem subC_step_some (dd : List Char) (c : Char) (cs rest : List Char)
    (hm : matchC (c :: cs) = some rest) :
    subC dd false (c :: cs) = replC dd ++ subC dd false rest := by
  simp only [subC]
  rw [if_neg (by decide)]
  split
  next r2 heq =>
    rw [hm] at heq
    injection heq with h
    rw [← h]
  next heq => rw [hm] at heq; exact Option.noConfusion heq

theorem subD_step_word (dd : List Char) (c : Char) (cs : List Char) :
    subD dd true (c :: cs) = c :: subD dd (isWordChar c) cs := by
  simp only [subD]
  rw [if_pos trivial]

theorem subD_step_none (dd : List Char) (c : Char) (cs : List Char)
    (hm : matchD (c :: cs) = none) :
    subD dd false (c :: cs) = c :: subD dd (isWordChar c) cs := by
  simp only [subD]
  rw [if_neg (by decide)]
  split
  next rest heq => rw [hm] at heq; exact Option.noConfusion heq
  next heq => rfl

theorem subD_step_some (dd : List Char) (c : Char) (cs rest : List Char)
    (hm : matchD (c :: cs) = some rest) :
    subD dd false (c :: cs) = replD dd ++ subD dd false rest := by
  simp only [subD]
  rw [if_neg (by decide)]
  split
  next r2 heq =>
    rw [hm] at heq
    injection heq with h
    rw [← h]
  next heq => rw [hm] at heq; exact Option.noConfusion heq

theorem matchC_pre {s r : List Char} (h : matchC s = some r) :
    "Gettext.gettext(".toList.isPrefixOf s = true := by
  unfold matchC at h
  by_cases h1 : "Gettext.gettext(".toList.isPrefixOf s = true
  · exact h1
  · rw [if_neg h1] at h
    exact Option.noConfusion h

theorem matchD_pre {s r : List Char} (h : matchD s = some r) :
    "Gettext.ngettext(".toList.isPrefixOf s = true := by
  unfold matchD at h
  by_cases h1 : "Gettext.ngettext(".toList.isPrefixOf s = true
  · exact h1
  · rw [if_neg h1] at h
    exact Option.noConfusion h

theorem subA_id_of_pclean (dd : List Char) : ∀ (n : Nat) (s : List Char), s.length ≤ n →
    ∀ b, pclean gpat b s = true → subA dd b s = s := by
  intro n
  induction n with
  | zero =>
    intro s hlen b _
    have hs : s = [] := List.length_eq_zero.mp (Nat.le_zero.mp hlen)
    subst hs
    simp [subA]
  | succ n ih =>
    intro s hlen b h
    cases s with
    | nil => simp [subA]
    | cons c cs =>
      rw [pclean] at h
      rcases Bool.and_eq_true .. |>.mp h with ⟨h1, h2⟩
      by_cases hc : (!b && gpat.isPrefixOf (c :: cs)) = true
      · exfalso
        rcases Bool.and_eq_true .. |>.mp hc with ⟨hb, hpre⟩
        rw [Bool.not_eq_true'] at hb
        subst hb
        rw [hpre] at h1
        simp at h1
      · have he : subA dd b (c :: cs) = c :: subA dd (isWordChar c) cs := by
          simp only [subA]
          rw [if_neg hc]
        rw [he, ih cs (by simpa using hlen) (isWordChar c) h2]

theorem subB_id_of_pclean (dd : List Char) : ∀ (n : Nat) (s : List Char), s.length ≤ n →
    ∀ b, pclean npat b s = true → subB dd b s = s := by
  intro n
  induction n with
  | zero =>
    intro s hlen b _
    have hs : s = [] := List.length_eq_zero.mp (Nat.le_zero.mp hlen)
    subst hs
    simp [subB]
  | succ n ih =>
    intro s hlen b h
    cases s with
    | nil => simp [subB]
    | cons c cs =>
      rw [pclean] at h
      rcases Bool.and_eq_true .. |>.mp h with ⟨h1, h2⟩
      by_cases hc : (!b && npat.isPrefixOf (c :: cs)) = true
      · exfalso
        rcases Bool.and_eq_true .. |>.mp hc with ⟨hb, hpre⟩
        rw [Bool.not_eq_true'] at hb
        subst hb
        rw [hpre] at h1
        simp at h1
      · have he : subB dd b (c :: cs) = c :: subB dd (isWordChar c) cs := by
          simp only [subB]
          rw [if_neg hc]
        rw [he, ih cs (by simpa using hlen) (isWordChar c) h2]

theorem subC_id_of_pclean (dd : List Char) : ∀ (n : Nat) (s : List Char), s.length ≤ n →
    ∀ b, pclean gpat b s = true → subC dd b s = s := by
  intro n
  induction n with
  | zero =>
    intro s hlen b _
    have hs : s = [] := List.length_eq_zero.mp (Nat.le_zero.mp hlen)
    subst hs
    simp [subC]
  | succ n ih =>
    intro s hlen b h
    cases s with
    | nil => simp [subC]
    | cons c cs =>
      have h2 : pclean gpat (isWordChar c) cs = true := by
        rw [pclean] at h
        exact (Bool.and_eq_true .. |>.mp h).2
      cases b with
      | true =>
        rw [subC_step_word, ih cs (by simpa using hlen) (isWordChar c) h2]
      | false =>
        rcases hm : matchC (c :: cs) with _ | rest
        · rw [subC_step_none dd c cs hm, ih cs (by simpa using hlen) (isWordChar c) h2]
        · exfalso
          obtain ⟨t, ht⟩ := List.isPrefixOf_iff_prefix.mp (matchC_pre hm)
          rw [← ht] at h
          have hform : ("Gettext.gettext(".toList ++ t) =
              'G' :: 'e' :: 't' :: 't' :: 'e' :: 'x' :: 't' :: '.' ::
              'g' :: 'e' :: 't' :: 't' :: 'e' :: 'x' :: 't' :: '(' :: t := rfl
          rw [hform] at h
          simp [pclean, gpat, List.isPrefixOf, isWordChar] at h

theorem subD_id_of_pclean (dd : List Char) : ∀ (n : Nat) (s : List Char), s.length ≤ n →
    ∀ b, pclean npat b s = true → subD dd b s = s := by
  intro n
  induction n with
  | zero =>
    intro s hlen b _
    have hs : s = [] := List.length_eq_zero.mp (Nat.le_zero.mp hlen)
    subst hs
    simp [subD]
  | succ n ih =>
    intro s hlen b h
    cases s with
    | nil => simp [subD]
    | cons c cs =>
      have h2 : pclean npat (isWordChar c) cs = true := by
        rw [pclean] at h
        exact (Bool.and_eq_true .. |>.mp h).2
      cases b with
      | true =>
        rw [subD_step_word, ih cs (by simpa using hlen) (isWordChar c) h2]
      | false =>
        rcases hm : matchD (c :: cs) with _ | rest
        · rw [subD_step_none dd c cs hm, ih cs (by simpa using hlen) (isWordChar c) h2]
        · exfalso
          obtain ⟨t, ht⟩ := List.isPrefixOf_iff_prefix.mp (matchD_pre hm)
          rw [← ht] at h
          have hform : ("Gettext.ngettext(".toList ++ t) =
              'G' :: 'e' :: 't' :: 't' :: 'e' :: 'x' :: 't' :: '.' ::
              'n' :: 'g' :: 'e' :: 't' :: 't' :: 'e' :: 'x' :: 't' :: '(' :: t := rfl
          rw [hform] at h
          simp [pclean, npat, List.isPrefixOf, isWordChar] at h

/-- C4: the Call Rewriter's text transform is idempotent. Every label in
`DOMAIN_RULES` consists of word characters, and for every content `c` and
every label `d` of word characters, applying `transform_content` twice with
the same `d` gives the same result as applying it once: the first pass
leaves no `gettext(` / `ngettext(` occurrence after a non-word character
(the lookbehind `(?<![d\w])` boundary), and the module-form patterns find
no `Gettext.gettext(` / `Gettext.ngettext(` either, so the second pass of
each of the four substitutions is the identity. -/
theorem C4_transform_idempotent :
    (∀ p ∈ DOMAIN_RULES, allWord p.2 = true) ∧
    ∀ (content d : List Char), allWord d = true →
      transform_content (transform_content content d) d = transform_content content d := by
  constructor
  · decide
  · intro content d hd
    have hg4 : pclean gpat false (transform_content content d) = true := by
      have hg3 : pclean gpat false
          (subA d false (subD d false (subC d false content))) = true :=
        pclean_gpat_subA d hd _ _ le_rfl false
      exact pclean_gpat_subB d hd _ _ le_rfl false hg3
    have hn4 : pclean npat false (transform_content content d) = true :=
      pclean_npat_subB d hd _ _ le_rfl false
    have hC := subC_id_of_pclean d _ (transform_content content d) le_rfl false hg4
    have hD := subD_id_of_pclean d _ (transform_content content d) le_rfl false hn4
    have hA := subA_id_of_pclean d _ (transform_content content d) le_rfl false hg4
    have hB := subB_id_of_pclean d _ (transform_content content d) le_rfl false hn4
    show subB d false (subA d false (subD d false
      (subC d false (transform_content content d)))) = transform_content content d
    rw [hC, hD, hA, hB]

theorem C4_transform_idempotent_witness :
    allWord (("storyarn_web/live/flow_live/".toList, "flows".toList)).2 = true ∧
    transform_content
        (transform_content "x = gettext(\"hi\")".toList "flows".toList) "flows".toList
      = transform_content "x = gettext(\"hi\")".toList "flows".toList :=
  ⟨C4_transform_idempotent.1 _ (by decide),
   C4_transform_idempotent.2 _ _ (by decide)⟩

/-- No position of the string (with `b` the word-ness of the previous
character) admits a `matchC` match: the `RE_MOD_GETTEXT` scanner will copy
every character. -/
def noMatchC : Bool → List Char → Bool
  | _, [] => true
  | b, c :: cs => (b || (matchC (c :: cs)).isNone) && noMatchC (isWordChar c) cs

/-- Same for `matchD` / `RE_MOD_NGETTEXT`. -/
def noMatchD : Bool → List Char → Bool
  | _, [] => true
  | b, c :: cs => (b || (matchD (c :: cs)).isNone) && noMatchD (isWordChar c) cs

theorem subC_id_of_noMatchC (dd : List Char) : ∀ (n : Nat) (s : List Char), s.length ≤ n →
    ∀ b, noMatchC b s = true → subC dd b s = s := by
  intro n
  induction n with
  | zero =>
    intro s hlen b _
    have hs : s = [] := List.length_eq_zero.mp (Nat.le_zero.mp hlen)
    subst hs
    simp [subC]
  | succ n ih =>
    intro s hlen b h
    cases s with
    | nil => simp [subC]
    | cons c cs =>
      rw [noMatchC] at h
      rcases Bool.and_eq_true .. |>.mp h with ⟨h1, h2⟩
      cases b with
      | true =>
        rw [subC_step_word, ih cs (by simpa using hlen) (isWordChar c) h2]
      | false =>
        have hm : matchC (c :: cs) = none := by
          simp only [Bool.false_or] at h1
          exact Option.isNone_iff_eq_none.mp h1
        rw [subC_step_none dd c cs hm, ih cs (by simpa using hlen) (isWordChar c) h2]

theorem subD_id_of_noMatchD (dd : List Char) : ∀ (n : Nat) (s : List Char), s.length ≤ n →
    ∀ b, noMatchD b s = true → subD dd b s = s := by
  intro n
  induction n with
  | zero =>
    intro s hlen b _
    have hs : s = [] := List.length_eq_zero.mp (Nat.le_zero.mp hlen)
    subst hs
    simp [subD]
  | succ n ih =>
    intro s hlen b h
    cases s with
    | nil => simp [subD]
    | cons c cs =>
      rw [noMatchD] at h
      rcases Bool.and_eq_true .. |>.mp h with ⟨h1, h2⟩
      cases b with
      | true =>
        rw [subD_step_word, ih cs (by simpa using hlen) (isWordChar c) h2]
      | false =>
        have hm : matchD (c :: cs) = none := by
          simp only [Bool.false_or] at h1
          exact Option.isNone_iff_eq_none.mp h1
        rw [subD_step_none dd c cs hm, ih cs (by simpa using hlen) (isWordChar c) h2]

/-- The word-ness flag after scanning a list of characters. -/
def scanFlag (b : Bool) : List Char → Bool
  | [] => b
  | c :: cs => scanFlag (isWordChar c) cs

/-- No `gpat` occurrence starts within the segment `xs` (even overlapping
into the continuation `ys`). -/
def cleanSegA (b : Bool) (ys : List Char) : List Char → Bool
  | [] => true
  | c :: cs => (b || !(gpat.isPrefixOf (c :: (cs ++ ys)))) && cleanSegA (isWordChar c) ys cs

theorem subA_seg (dd : List Char) : ∀ (xs : List Char) (b : Bool) (ys : List Char),
    cleanSegA b ys xs = true →
    subA dd b (xs ++ ys) = xs ++ subA dd (scanFlag b xs) ys := by
  intro xs
  induction xs with
  | nil => intro b ys _; rfl
  | cons c cs ih =>
    intro b ys h
    rw [cleanSegA] at h
    rcases Bool.and_eq_true .. |>.mp h with ⟨h1, h2⟩
    have hcond : (!b && gpat.isPrefixOf (c :: (cs ++ ys))) = false := by
      cases b with
      | true => simp
      | false =>
        simp only [Bool.false_or] at h1
        simpa using h1
    have he : subA dd b (c :: (cs ++ ys)) = c :: subA dd (isWordChar c) (cs ++ ys) := by
      simp only [subA]
      rw [if_neg (by simp [hcond])]
    rw [List.cons_append, he, ih (isWordChar c) ys h2]
    rfl

theorem subA_match (dd : List Char) (c : Char) (cs : List Char)
    (h : gpat.isPrefixOf (c :: cs) = true) :
    subA dd false (c :: cs) = replA dd ++ subA dd false ((c :: cs).drop 8) := by
  simp only [subA]
  rw [if_pos (by simp [h])]

/-- One `pclean` step where the first pattern character differs from the
first subject character: no match can start here. -/
theorem pclean_step_ne (p0 : Char) (ps : List Char) (b : Bool) (c : Char) (cs : List Char)
    (h : (p0 == c) = false) :
    pclean (p0 :: ps) b (c :: cs) = pclean (p0 :: ps) (isWordChar c) cs := by
  rw [pclean]
  have hpre : (p0 :: ps).isPrefixOf (c :: cs) = false := by
    simp [List.isPrefixOf, h]
  rw [hpre]
  simp

/-- `pclean` ignores a segment none of whose characters equals the first
pattern character. -/
theorem pclean_no_head (p0 : Char) (ps : List Char) : ∀ (xs : List Char) (b : Bool)
    (rest : List Char), (∀ c ∈ xs, (p0 == c) = false) →
    pclean (p0 :: ps) b (xs ++ rest) = pclean (p0 :: ps) (scanFlag b xs) rest := by
  intro xs
  induction xs with
  | nil => intro b rest _; rfl
  | cons c cs ih =>
    intro b rest hne
    rw [List.cons_append,
      pclean_step_ne p0 ps b c (cs ++ rest) (hne c (List.mem_cons_self c cs)),
      ih (isWordChar c) rest (fun x hx => hne x (List.mem_cons_of_mem c hx))]
    rfl

/-- C10: a module-qualified call whose first argument is not the fixed
handle `StoryarnWeb.Gettext` is untouched by the module-form patterns but
IS rewritten by the bare Form A pattern, because the lookbehind
`(?<![d\w])` accepts the dot of `Gettext.`: the domain is injected before
the foreign module handle, giving `Gettext.dgettext("d", Other, "x")`. -/
theorem C10_bare_form_rewrites_other_module (d : List Char) (hd : allWord d = true) :
    transform_content "Gettext.gettext(Other, \"x\")".toList d
      = "Gettext.dgettext(\"".toList ++ d ++ "\", Other, \"x\")".toList := by
  have hC : subC d false "Gettext.gettext(Other, \"x\")".toList
      = "Gettext.gettext(Other, \"x\")".toList :=
    subC_id_of_noMatchC d _ _ le_rfl false (by decide)
  have hD : subD d false "Gettext.gettext(Other, \"x\")".toList
      = "Gettext.gettext(Other, \"x\")".toList :=
    subD_id_of_noMatchD d _ _ le_rfl false (by decide)
  have hA : subA d false "Gettext.gettext(Other, \"x\")".toList
      = "Gettext.".toList ++ (replA d ++ "Other, \"x\")".toList) := by
    have hseg : subA d false "Gettext.gettext(Other, \"x\")".toList
        = "Gettext.".toList ++ subA d false "gettext(Other, \"x\")".toList :=
      subA_seg d "Gettext.".toList false "gettext(Other, \"x\")".toList (by decide)
    have h1 : subA d false "gettext(Other, \"x\")".toList
        = replA d ++ subA d false "Other, \"x\")".toList :=
      subA_match d 'g' "ettext(Other, \"x\")".toList (by decide)
    have h2 : subA d false "Other, \"x\")".toList = "Other, \"x\")".toList :=
      subA_id_of_pclean d _ "Other, \"x\")".toList le_rfl false (by decide)
    rw [hseg, h1, h2]
  have harg : "Gettext.".toList ++ (replA d ++ "Other, \"x\")".toList)
      = "Gettext.dgettext(\"".toList ++ (d ++ '"' :: ", Other, \"x\")".toList) := by
    simp [replA, List.append_assoc]
  have hpcl : pclean npat false
      ("Gettext.dgettext(\"".toList ++ (d ++ '"' :: ", Other, \"x\")".toList)) = true := by
    have hn : npat = 'n' :: "gettext(".toList := rfl
    rw [hn, pclean_no_head 'n' "gettext(".toList "Gettext.dgettext(\"".toList false
      (d ++ '"' :: ", Other, \"x\")".toList) (by decide)]
    rw [← hn]
    rw [show scanFlag false "Gettext.dgettext(\"".toList = false from rfl]
    rw [pclean_npat_words d ", Other, \"x\")".toList false hd]
    decide
  have hB : subB d false ("Gettext.dgettext(\"".toList ++ (d ++ '"' :: ", Other, \"x\")".toList))
      = "Gettext.dgettext(\"".toList ++ (d ++ '"' :: ", Other, \"x\")".toList) :=
    subB_id_of_pclean d _ _ le_rfl false hpcl
  have hgrp : "Gettext.dgettext(\"".toList ++ d ++ "\", Other, \"x\")".toList
      = "Gettext.dgettext(\"".toList ++ (d ++ '"' :: ", Other, \"x\")".toList) := by
    rw [List.append_assoc]
    rfl
  show subB d false (subA d false (subD d false
      (subC d false "Gettext.gettext(Other, \"x\")".toList)))
    = "Gettext.dgettext(\"".toList ++ d ++ "\", Other, \"x\")".toList
  rw [hC, hD, hA, harg, hB]
  exact hgrp.symm

theorem C10_bare_form_rewrites_other_module_witness :
    allWord "flows".toList = true ∧
    transform_content "Gettext.gettext(Other, \"x\")".toList "flows".toList
      = "Gettext.dgettext(\"".toList ++ "flows".toList ++ "\", Other, \"x\")".toList :=
  ⟨by decide, C10_bare_form_rewrites_other_module "flows".toList (by decide)⟩
